import Mathlib

/-!
Verification development for the `bevy-convars` crate: a shallow embedding of
the path trie (`CVarTreeNode`), the registry (`CVarManagement`), the
reflection-based get/set pipeline (`set_cvar_deserialize`, `get_cvar_reflect`),
the document scanner and loader (`CVarDocScanner::traverse`,
`ConfigLoader::apply`), the save-back logic (`CVarSaveContext::save_world`,
`get_cvar_entry`, `save_cvar_inner_erased`), the default-tracking helpers
(`IsDefault::is_default`), and override parsing (`TryFrom<&str> for
CVarOverride`).

Rust `HashMap`s are embedded as association lists; Bevy change ticks as
natural numbers stored per resource cell; registration-time panics as an
`Except` layer whose error carries the data-structure state at the moment of
the panic; TOML documents as ordered tables whose entries carry an opaque
decor string standing for the surrounding formatting that `toml_edit` attaches
to each key.
-/

namespace BevyConvars

/-- Association-list lookup, embedding `HashMap::get` (first binding wins;
real `HashMap`s never hold duplicate keys). -/
def lookupA {κ ν : Type} [DecidableEq κ] : List (κ × ν) → κ → Option ν
  | [], _ => none
  | (k₀, v₀) :: rest, k => if k₀ = k then some v₀ else lookupA rest k

/-- Association-list insert-or-replace, embedding `HashMap::insert`. -/
def insertA {κ ν : Type} [DecidableEq κ] : List (κ × ν) → κ → ν → List (κ × ν)
  | [], k, v => [(k, v)]
  | (k₀, v₀) :: rest, k, v =>
      if k₀ = k then (k, v) :: rest else (k₀, v₀) :: insertA rest k v

/-- Split a character list at every occurrence of `c`, embedding Rust
`str::split` (an empty input yields one empty segment, as in Rust). -/
def splitChar (c : Char) : List Char → List (List Char)
  | [] => [[]]
  | x :: xs =>
      if x = c then [] :: splitChar c xs
      else
        match splitChar c xs with
        | [] => [[x]]
        | l :: ls => (x :: l) :: ls

/-- Split a string on `'.'` into its dotted segments, embedding
`name.split('.')` as used by `CVarTreeNode::insert` and `CVarTreeNode::get`. -/
def splitDots (s : String) : List String :=
  (splitChar '.' s.toList).map (fun l => String.mk l)

/-- Split a character list at the first occurrence of `c`, embedding Rust
`str::split_once` as used by override parsing: `none` when `c` is absent,
otherwise the text left and right of the first occurrence. -/
def splitOnce (c : Char) : List Char → Option (List Char × List Char)
  | [] => none
  | x :: xs =>
      if x = c then some ([], xs)
      else (splitOnce c xs).map (fun p => (x :: p.1, p.2))

/-- The dynamic value universe: the scalar/array values shared by the TOML
value grammar and the reflected inner values of cvar resources. -/
inductive CVal : Type where
  | boolV (b : Bool)
  | intV (n : Int)
  | strV (s : String)
  | arrV (xs : List CVal)

/-- Structural kind tag used to embed the type check `PartialReflect::try_apply`
performs before replacing a value. -/
def CVal.kind : CVal → Nat
  | .boolV _ => 0
  | .intV _ => 1
  | .strV _ => 2
  | .arrV _ => 3

/-- Embedding of `try_apply` at our granularity: an atomic whole-value replace
that succeeds exactly when the structural kinds agree. -/
def tryApply (cur patch : CVal) : Option CVal :=
  if cur.kind = patch.kind then some patch else none

/-- `CVarFlags::LOCAL` (types.rs): the empty flag set. -/
def CVarFlags.LOCAL : Nat := 0

/-- `CVarFlags::SAVED` (types.rs): bit 0. -/
def CVarFlags.SAVED : Nat := 1

/-- `CVarFlags::MIRRORED` (types.rs): bit 1. -/
def CVarFlags.MIRRORED : Nat := 2

/-- `CVarFlags::RUNTIME` (types.rs): bit 2. -/
def CVarFlags.RUNTIME : Nat := 4

/-- `CVarFlags::contains` (types.rs): `(a & b) == b`. -/
def CVarFlags.contains (a b : Nat) : Bool := a.land b == b

/-- The `CVarError` enum of `error.rs`, plus the `MalformedConfigDuringWrite`
variant that `save.rs` produces (`FailedApply`'s inner `ApplyError` payload is
dropped). -/
inductive CVarError : Type where
  | UnknownCVar
  | BadCVarType
  | MissingCid
  | CannotDeserialize
  | FailedDeserialize (detail : String)
  | FailedApply
  | AccessConflict
  | TomlError
  | MalformedConfigDuringWrite (msg : String)
deriving DecidableEq

/-- The three registration-time panics of `CVarTreeNode` (lib.rs):
`get_or_insert_branch` on a leaf, `insert_leaf` on a leaf, and the
duplicate-binding assertion inside `insert_leaf`. -/
inductive RegPanic : Type where
  | branchIntoTerminating
  | leafIntoTerminating
  | duplicateCVar
deriving DecidableEq

/-- The path trie `CVarTreeNode` (lib.rs): a leaf holds a name and the
`ComponentId` (a `Nat` here) of the registered resource; a branch holds a
map of descendants. -/
inductive CVarTreeNode : Type where
  | Leaf (name : String) (reg : Nat)
  | Branch (descendants : List (String × CVarTreeNode))

/-- Segment-level body of `CVarTreeNode::get` (lib.rs): every walked node must
be a `Branch`, and the walk must end on a `Leaf`. -/
def getGo : CVarTreeNode → List String → Option Nat
  | .Leaf _ reg, [] => some reg
  | .Branch _, [] => none
  | .Leaf _ _, _ :: _ => none
  | .Branch d, s :: rest =>
      match lookupA d s with
      | none => none
      | some c => getGo c rest

/-- `CVarTreeNode::get` (lib.rs): split the name on `'.'` and walk. -/
def CVarTreeNode.get (t : CVarTreeNode) (name : String) : Option Nat :=
  getGo t (splitDots name)

/-- Walk a segment list through the trie without any leaf requirement at the
end; used to phrase where a collision sits. -/
def walkPath : CVarTreeNode → List String → Option CVarTreeNode
  | t, [] => some t
  | .Leaf _ _, _ :: _ => none
  | .Branch d, s :: rest =>
      match lookupA d s with
      | none => none
      | some c => walkPath c rest

/-- Specification-side characterisation of a successful trie lookup: the
segments pass through branches and end on a leaf holding `r`. -/
inductive LeafAt : CVarTreeNode → List String → Nat → Prop where
  | leaf (n : String) (r : Nat) : LeafAt (.Leaf n r) [] r
  | step {d : List (String × CVarTreeNode)} {s : String} {rest : List String}
      {r : Nat} {c : CVarTreeNode} :
      lookupA d s = some c → LeafAt c rest r → LeafAt (.Branch d) (s :: rest) r

/-- `CVarTreeNode::insert_leaf` (lib.rs). A panic is modelled as
`Except.error` carrying the node state at the moment of the panic: note that
the Rust code calls `descendants.insert(key, Leaf)` — which replaces any
existing binding — *before* the `assert!` that fires on a duplicate, so in the
duplicate case the error state already holds the new leaf. -/
def CVarTreeNode.insertLeaf :
    CVarTreeNode → String → Nat → Except (RegPanic × CVarTreeNode) CVarTreeNode
  | .Leaf n r, _, _ => .error (.leafIntoTerminating, .Leaf n r)
  | .Branch d, key, reg =>
      let old := lookupA d key
      let dNew := insertA d key (.Leaf key reg)
      if old.isSome then .error (.duplicateCVar, .Branch dNew)
      else .ok (.Branch dNew)

/-- Segment-level body of `CVarTreeNode::insert` (lib.rs): walk/create
branches via `get_or_insert_branch` (whose leaf-collision panic is
`branchIntoTerminating`), and insert a leaf at the final segment. On a panic
the error carries the tree state at that moment, including the branches
`or_insert` already created. -/
def insertGo : CVarTreeNode → List String → Nat →
    Except (RegPanic × CVarTreeNode) CVarTreeNode
  | t, [], _ => .ok t
  | t, [k], reg => t.insertLeaf k reg
  | .Leaf n r, _ :: _ :: _, _ => .error (.branchIntoTerminating, .Leaf n r)
  | .Branch d, k :: k₂ :: rest, reg =>
      let child := (lookupA d k).getD (.Branch [])
      match insertGo child (k₂ :: rest) reg with
      | .ok c₂ => .ok (.Branch (insertA d k c₂))
      | .error (e, c₂) => .error (e, .Branch (insertA d k c₂))

/-- `CVarTreeNode::insert` (lib.rs). -/
def CVarTreeNode.insert (t : CVarTreeNode) (name : String) (reg : Nat) :
    Except (RegPanic × CVarTreeNode) CVarTreeNode :=
  insertGo t (splitDots name) reg

/-- All leaves reachable from a descendants list, with the segment path from
this point, the leaf's stored name, and its registration id, in traversal
order. -/
def leavesOfList : List (String × CVarTreeNode) → List (List String × String × Nat)
  | [] => []
  | (k, .Leaf n r) :: rest => ([k], n, r) :: leavesOfList rest
  | (k, .Branch d) :: rest =>
      (leavesOfList d).map (fun e => (k :: e.1, e.2.1, e.2.2)) ++ leavesOfList rest

/-- All leaves of a trie. -/
def leavesOf : CVarTreeNode → List (List String × String × Nat)
  | .Leaf n r => [([], n, r)]
  | .Branch d => leavesOfList d

/-- A `toml_edit::Item`: a value, a nested table, `Item::None`, or an array of
tables. A table is an ordered list of entries `(key, decor, item)` where the
decor string is the opaque formatting (whitespace, comments) `toml_edit`
attaches to the key and preserves across edits of other entries. -/
inductive TomlItem : Type where
  | value (v : CVal)
  | table (t : List (String × String × TomlItem))
  | noneItem
  | arrayOfTables

/-- A TOML table: ordered entries of key, decor, item. -/
def TomlTable : Type := List (String × String × TomlItem)

/-- Lookup of a full entry (decor and item) by key, embedding
`Table::get_key_value` / `Table::entry` probing. -/
def tableGetEntry : TomlTable → String → Option (String × TomlItem)
  | [], _ => none
  | (k₀, d₀, v₀) :: rest, k =>
      if k₀ = k then some (d₀, v₀) else tableGetEntry rest k

/-- Lookup of the item stored at a key. -/
def tableGet (t : TomlTable) (k : String) : Option TomlItem :=
  (tableGetEntry t k).map (fun p => p.2)

/-- `Item::as_table` — only `Item::Table` answers. -/
def TomlItem.asTable : TomlItem → Option TomlTable
  | .table t => some t
  | _ => none

/-- Insert-or-update a single key, embedding `Table::entry(k).or_insert` +
item assignment: an existing entry keeps its key decor and order slot and only
its item is replaced; a missing key is appended with default decor. -/
def setEntry : TomlTable → String → TomlItem → TomlTable
  | [], k, v => [(k, "", v)]
  | (k₀, d₀, v₀) :: rest, k, v =>
      if k₀ = k then (k₀, d₀, v) :: rest else (k₀, d₀, v₀) :: setEntry rest k v

/-- Resolve a dotted-segment chain in a document: intermediate segments must
be `Item::Table`s, the final segment may hold any item. This is the read-side
mirror of how both the scanner descends and `get_cvar_entry` walks. -/
def docResolve : TomlTable → List String → Option TomlItem
  | _, [] => none
  | t, [k] => tableGet t k
  | t, k :: k₂ :: rest =>
      match tableGet t k with
      | some (.table t₂) => docResolve t₂ (k₂ :: rest)
      | _ => none

/-- Resolve a dotted-segment chain down to the full final entry (decor and
item); used to state the frame property of saving. -/
def resolveEntry : TomlTable → List String → Option (String × TomlItem)
  | _, [] => none
  | t, [k] => tableGetEntry t k
  | t, k :: k₂ :: rest =>
      match tableGet t k with
      | some (.table t₂) => resolveEntry t₂ (k₂ :: rest)
      | _ => none

/-- `CVarSaveContext::get_cvar_entry` + `save_cvar_inner_erased` (save.rs) on
pre-split segments: walk the leading sections with
`entry(section).or_insert(Item::Table(new)).as_table_mut()` — creating
intermediate tables on demand, failing `MalformedConfigDuringWrite` when an
existing non-table item occupies a needed section — then insert-or-update the
single final key. -/
def insertAtPath : TomlTable → List String → TomlItem → Except CVarError TomlTable
  | t, [], _ => .ok t
  | t, [k], v => .ok (setEntry t k v)
  | t, k :: k₂ :: rest, v =>
      match tableGetEntry t k with
      | none =>
          (insertAtPath [] (k₂ :: rest) v).map (fun sub => setEntry t k (.table sub))
      | some (_, .table sub) =>
          (insertAtPath sub (k₂ :: rest) v).map (fun sub₂ => setEntry t k (.table sub₂))
      | some (_, _) => .error (.MalformedConfigDuringWrite "Expected a table.")

/-- The per-type data `ReflectCVar` (reflect.rs) carries: the inner type's
id, the declared path, and the declared flags. -/
structure ReflectCVarData : Type where
  innerType : Nat
  path : String
  flags : Nat

/-- The per-inner-type data held by the app's type registry: the optional
`ReflectDeserialize` and `ReflectSerialize` hooks. A deserializer consumes a
raw TOML value and may fail; a serializer renders the typed value back into a
TOML value. -/
structure RegistryEntry : Type where
  deser : Option (CVal → Option CVal)
  ser : Option (CVal → CVal)

/-- A live resource cell: the cvar's inner value plus the Bevy change ticks
the `IsDefault` helpers inspect. -/
structure Cell : Type where
  value : CVal
  added : Nat
  changed : Nat

/-- `IsDefault::is_default` (defaults.rs): `self.added() == self.last_changed()`. -/
def Cell.isDefault (c : Cell) : Bool := c.added == c.changed

/-- The world as the cvar core sees it: resource cells by `ComponentId`, the
app type registry by inner type id, and the current change tick. -/
structure WorldState : Type where
  cells : List (Nat × Cell)
  typeRegistry : List (Nat × RegistryEntry)
  tick : Nat

/-- `CVarManagement` (lib.rs): the type-registration index by `ComponentId`
and the path trie. -/
structure CVarManagement : Type where
  resources : List (Nat × ReflectCVarData)
  tree : CVarTreeNode

/-- Flags of a registered id, as the scanner reads them via
`management.resources[reg].data::<ReflectCVar>()` (a missing id — a panic in
Rust, unreachable for registered trees — yields the empty flag set). -/
def flagsOf (mgmt : CVarManagement) (reg : Nat) : Nat :=
  match lookupA mgmt.resources reg with
  | some ty => ty.flags
  | none => 0

/-- Modelled from the spec: the write mode `Normal | Silent` of
`set_value_from_serialized` (spec §4.3). The mode parameter is absent from
the sources under src/ (only its callers and the tests that observe it are
present): a `Silent` write additionally marks the cell as default immediately
after writing, a `Normal` write leaves ordinary change tracking in effect. -/
inductive CVarModifyMode : Type where
  | normal
  | silent

/-- `CVarManagement::set_cvar_deserialize` (lib.rs), the
`set_value_from_serialized` of the spec: resolve the path, fetch the type
registration, look up the deserializer in the app registry, deserialize the
raw value, fetch the resource cell mutably, and apply atomically. The
`Normal | Silent` mode is modelled from the spec (see `CVarModifyMode`):
`silent` sets the cell's added tick equal to its changed tick
(`set_is_default`), `normal` only bumps the changed tick. -/
def setCVarDeserialize (mgmt : CVarManagement) (world : WorldState)
    (cvar : String) (raw : CVal) (mode : CVarModifyMode) :
    Except CVarError WorldState :=
  match mgmt.tree.get cvar with
  | none => .error .UnknownCVar
  | some cid =>
      match lookupA mgmt.resources cid with
      | none => .error .MissingCid
      | some tyReg =>
          match (lookupA world.typeRegistry tyReg.innerType).bind
              (fun e => e.deser) with
          | none => .error .CannotDeserialize
          | some d =>
              match d raw with
              | none => .error (.FailedDeserialize "deserializer rejected the value")
              | some patch =>
                  match lookupA world.cells cid with
                  | none => .error .BadCVarType
                  | some cell =>
                      match tryApply cell.value patch with
                      | none => .error .FailedApply
                      | some newVal =>
                          let cell₂ : Cell :=
                            match mode with
                            | .normal => ⟨newVal, cell.added, world.tick⟩
                            | .silent => ⟨newVal, world.tick, world.tick⟩
                          .ok { world with cells := insertA world.cells cid cell₂ }

/-- The cell produced by a write: a `Normal` write keeps the added tick and
bumps the changed tick; a `Silent` write sets both to the current tick
(`set_is_default`). -/
def modeCell (mode : CVarModifyMode) (newVal : CVal) (added tick : Nat) : Cell :=
  match mode with
  | .normal => ⟨newVal, added, tick⟩
  | .silent => ⟨newVal, tick, tick⟩

/-- The deserialization pipeline of `set_cvar_deserialize` in isolation: the
typed patch a raw value turns into for the type registered at a path. -/
def deserializeForPath (mgmt : CVarManagement) (world : WorldState)
    (cvar : String) (raw : CVal) : Option CVal :=
  match mgmt.tree.get cvar with
  | none => none
  | some cid =>
      match lookupA mgmt.resources cid with
      | none => none
      | some tyReg =>
          match (lookupA world.typeRegistry tyReg.innerType).bind
              (fun e => e.deser) with
          | none => none
          | some d => d raw

/-- `CVarManagement::get_cvar_reflect` (lib.rs): resolve the path, fetch the
type registration, read the resource, and return its inner value. -/
def getCVarReflect (mgmt : CVarManagement) (world : WorldState)
    (cvar : String) : Option CVal :=
  match mgmt.tree.get cvar with
  | none => none
  | some cid =>
      match lookupA mgmt.resources cid with
      | none => none
      | some _ =>
          match lookupA world.cells cid with
          | none => none
          | some cell => some cell.value

/-- `CVarOverride` (parse.rs): the path left of the first `=` and the parsed
TOML value right of it. -/
structure CVarOverride : Type where
  path : String
  value : CVal

/-- `CVarOverrideParseError` (parse.rs). -/
inductive CVarOverrideParseError : Type where
  | InvalidPath
  | InvalidToml
  | DoesntLookLikeAnOverride
deriving DecidableEq

/-- `TryFrom<&str> for CVarOverride` (parse.rs), parameterised by the
`toml_edit::Value::from_str` collaborator: split on the first `=` (its absence
is `DoesntLookLikeAnOverride`), parse the right side as a TOML value (failure
is `InvalidToml`), and return the left side unvalidated. -/
def CVarOverride.tryFrom (tomlParse : String → Option CVal) (s : String) :
    Except CVarOverrideParseError CVarOverride :=
  match splitOnce '=' s.toList with
  | none => .error .DoesntLookLikeAnOverride
  | some (l, r) =>
      match tomlParse (String.mk r) with
      | none => .error .InvalidToml
      | some v => .ok ⟨String.mk l, v⟩

/-- `WorldExtensions::set_cvar_with_override` (lib.rs): apply a parsed
override by deserializing its value into the named cvar; per spec §4.6 this
is a `Silent` write. -/
def setCVarWithOverride (mgmt : CVarManagement) (world : WorldState)
    (ov : CVarOverride) : Except CVarError WorldState :=
  setCVarDeserialize mgmt world ov.path ov.value .silent

/-- `CVarDocScanner::traverse` (loader/cvar_doc.rs) over one descendants
list: for each trie child whose key exists in the current table — a leaf is
staged as `(leaf name, item)` if it has `SAVED` or the document is not a user
config (otherwise skipped with a warning); a branch is descended into when
the document item is a table, and skipped with a warning otherwise. -/
def traverseList (userConfig : Bool) (mgmt : CVarManagement) :
    TomlTable → List (String × CVarTreeNode) → List (String × TomlItem)
  | _, [] => []
  | item, (key, node) :: rest =>
      (match tableGet item key, node with
       | none, _ => []
       | some value, .Leaf name reg =>
           if CVarFlags.contains (flagsOf mgmt reg) CVarFlags.SAVED || !userConfig
           then [(name, value)]
           else []
       | some value, .Branch d =>
           match value.asTable with
           | some t₂ => traverseList userConfig mgmt t₂ d
           | none => []) ++ traverseList userConfig mgmt item rest

/-- `CVarDocScanner::find_cvars` (loader/cvar_doc.rs): traverse the document
guided by the management trie from the root. -/
def findCVars (userConfig : Bool) (mgmt : CVarManagement) (doc : TomlTable) :
    List (String × TomlItem) :=
  match mgmt.tree with
  | .Leaf _ _ => []
  | .Branch d => traverseList userConfig mgmt doc d

/-- The per-leaf selection the scanner implements, phrased on the flat leaf
list: a leaf is staged when its dotted path resolves in the document (all
intermediate items being tables) and it either has `SAVED` or the document is
not a user config. -/
def scanSelect (uc : Bool) (mgmt : CVarManagement) (doc : TomlTable)
    (e : List String × String × Nat) : Option (String × TomlItem) :=
  match docResolve doc e.1 with
  | some v =>
      if CVarFlags.contains (flagsOf mgmt e.2.2) CVarFlags.SAVED || !uc
      then some (e.2.1, v) else none
  | none => none

/-- The apply loop of `ConfigLoader::apply` (loader.rs): each staged
`Item::Value` is written via `set_cvar_deserialize` (a `Silent` write per
spec §4.4), a failure returns immediately with the world as mutated so far,
and non-value items are skipped with a warning. -/
def applyCVars (mgmt : CVarManagement) :
    WorldState → List (String × TomlItem) → WorldState × Option CVarError
  | world, [] => (world, none)
  | world, (cvar, item) :: rest =>
      match item with
      | .value v =>
          match setCVarDeserialize mgmt world cvar v .silent with
          | .error e => (world, some e)
          | .ok w₂ => applyCVars mgmt w₂ rest
      | _ => applyCVars mgmt world rest

/-- `ConfigLoader::apply` (loader.rs): scan the document for staged cvars and
apply them in order. -/
def configLoaderApply (userConfig : Bool) (mgmt : CVarManagement)
    (world : WorldState) (doc : TomlTable) : WorldState × Option CVarError :=
  applyCVars mgmt world (findCVars userConfig mgmt doc)

/-- Outcome of `CVarSaveContext::save_world`, separating returned errors from
panics (`panic!` on a saveable cvar without `ReflectSerialize`, `unwrap` on an
unregistered path or missing change ticks). -/
inductive SaveOutcome : Type where
  | ok (doc : TomlTable)
  | err (e : CVarError)
  | panicked (msg : String)

/-- The body of `CVarSaveContext::save_world` (save.rs) folding over the
registered types: skip entries without `SAVED`; panic when a saveable entry
lacks `ReflectSerialize`; resolve the path and change ticks (panics when
absent); skip entries whose cell is default; otherwise serialize the inner
value and insert it at the entry's dotted path. -/
def saveWorldGo (mgmt : CVarManagement) (world : WorldState) :
    TomlTable → List (Nat × ReflectCVarData) → SaveOutcome
  | doc, [] => .ok doc
  | doc, (_, cv) :: rest =>
      if !(CVarFlags.contains cv.flags CVarFlags.SAVED) then
        saveWorldGo mgmt world doc rest
      else
        match (lookupA world.typeRegistry cv.innerType).bind (fun e => e.ser) with
        | none => .panicked "missing ReflectSerialize implementation"
        | some ser =>
            match mgmt.tree.get cv.path with
            | none => .panicked "cvar path not in tree"
            | some cvarId =>
                match lookupA world.cells cvarId with
                | none => .panicked "missing change ticks"
                | some cell =>
                    if cell.isDefault then saveWorldGo mgmt world doc rest
                    else
                      match insertAtPath doc (splitDots cv.path)
                          (.value (ser cell.value)) with
                      | .error e => .err e
                      | .ok doc₂ => saveWorldGo mgmt world doc₂ rest

/-- `CVarSaveContext::save_world` (save.rs). -/
def saveWorld (mgmt : CVarManagement) (world : WorldState) (doc : TomlTable) :
    SaveOutcome :=
  saveWorldGo mgmt world doc mgmt.resources

/-- The selection predicate of `save_world` phrased per entry: `SAVED` is set,
a serializer exists for the inner type, and the resolved cell is not default. -/
def shouldSave (mgmt : CVarManagement) (world : WorldState)
    (p : Nat × ReflectCVarData) : Bool :=
  CVarFlags.contains p.2.flags CVarFlags.SAVED &&
    ((lookupA world.typeRegistry p.2.innerType).bind (fun e => e.ser)).isSome &&
    (match (mgmt.tree.get p.2.path).bind (lookupA world.cells) with
     | some cell => !cell.isDefault
     | none => false)

/-- The write phase of `save_world` restricted to already-selected entries:
serialize each entry's cell and insert it at its dotted path. -/
def writeSelected (mgmt : CVarManagement) (world : WorldState) :
    TomlTable → List (Nat × ReflectCVarData) → SaveOutcome
  | doc, [] => .ok doc
  | doc, (_, cv) :: rest =>
      let ser := ((lookupA world.typeRegistry cv.innerType).bind
        (fun e => e.ser)).getD (fun v => v)
      let cell := ((mgmt.tree.get cv.path).bind (lookupA world.cells)).getD
        ⟨.boolV true, 0, 0⟩
      match insertAtPath doc (splitDots cv.path) (.value (ser cell.value)) with
      | .error e => .err e
      | .ok doc₂ => writeSelected mgmt world doc₂ rest

/-! Concrete fixtures mirroring the crate's own test rig (`tests.rs`):
a boolean cvar and an integer cvar under the `testrig` namespace. -/

/-- Deserializer for the integer inner type. -/
def intDeser : CVal → Option CVal
  | .intV n => some (.intV n)
  | _ => none

/-- Deserializer for the boolean inner type. -/
def boolDeser : CVal → Option CVal
  | .boolV b => some (.boolV b)
  | _ => none

/-- Fixture app type registry: bool is type 0, int is type 1, both with
serialize and deserialize hooks. -/
def regFix : List (Nat × RegistryEntry) :=
  [(0, ⟨some boolDeser, some (fun v => v)⟩), (1, ⟨some intDeser, some (fun v => v)⟩)]

/-- Fixture trie holding `testrig.test_bool` (id 3) and `testrig.test_int`
(id 7). -/
def treeFix : CVarTreeNode :=
  .Branch [("testrig", .Branch
    [("test_bool", .Leaf "testrig.test_bool" 3),
     ("test_int", .Leaf "testrig.test_int" 7)])]

/-- Fixture management: `testrig.test_bool` is `LOCAL`, `testrig.test_int` is
`SAVED | RUNTIME`. -/
def mgmtFix : CVarManagement :=
  ⟨[(3, ⟨0, "testrig.test_bool", 0⟩), (7, ⟨1, "testrig.test_int", 5⟩)], treeFix⟩

/-- Fixture world at tick 9 with both cells still at their startup ticks. -/
def worldFix : WorldState :=
  ⟨[(3, ⟨.boolV true, 0, 0⟩), (7, ⟨.intV (-5), 0, 0⟩)], regFix, 9⟩

/-- Fixture world where `testrig.test_int` has been modified (changed tick 5
differs from added tick 0) while `testrig.test_bool` is still default. -/
def worldModFix : WorldState :=
  ⟨[(3, ⟨.boolV true, 0, 0⟩), (7, ⟨.intV 42, 0, 5⟩)], regFix, 9⟩

/-- Fixture pre-populated save document with an unrelated decorated key and a
pre-existing entry inside the `testrig` table. -/
def docPreFix : TomlTable :=
  [("other", " # comment", .value (.intV 1)),
   ("testrig", "", .table [("pre", "x", .value (.strV "keep"))])]

/-- The fixture document after saving `worldModFix` over `docPreFix`: only
`testrig.test_int` is added, all other entries and their decor unchanged. -/
def docPostFix : TomlTable :=
  [("other", " # comment", .value (.intV 1)),
   ("testrig", "", .table
     [("pre", "x", .value (.strV "keep")),
      ("test_int", "", .value (.intV 42))])]

/-- Fixture trie used by the registration-collision counterexample: `a.b`
already registered with id 0. -/
def dupTree : CVarTreeNode := .Branch [("a", .Branch [("b", .Leaf "b" 0)])]

/-- Fixture TOML value parser for override-parse witnesses. -/
def tpFix : String → Option CVal :=
  fun s => if s = "3" then some (.intV 3) else none

/-- Fixture document setting both testrig cvars. -/
def docFix : TomlTable :=
  [("testrig", "", .table
    [("test_bool", "", .value (.boolV false)),
     ("test_int", "", .value (.intV 4))])]

/-! Association-list and path-walk lemmas. -/

theorem lookupA_insertA_self {κ ν : Type} [DecidableEq κ] (l : List (κ × ν))
    (k : κ) (v : ν) : lookupA (insertA l k v) k = some v := by
  induction l with
  | nil => simp [insertA, lookupA]
  | cons hd tl ih =>
      obtain ⟨k₀, v₀⟩ := hd
      by_cases hk : k₀ = k <;> simp [insertA, lookupA, hk, ih]

theorem lookupA_insertA_ne {κ ν : Type} [DecidableEq κ] (l : List (κ × ν))
    (k k' : κ) (v : ν) (h : k' ≠ k) :
    lookupA (insertA l k v) k' = lookupA l k' := by
  have hne : ¬ k = k' := fun hh => h hh.symm
  induction l with
  | nil => simp [insertA, lookupA, hne]
  | cons hd tl ih =>
      obtain ⟨k₀, v₀⟩ := hd
      by_cases hk : k₀ = k
      · subst hk
        simp [insertA, lookupA, hne]
      · simp only [insertA, hk, if_false, lookupA]
        by_cases hk' : k₀ = k' <;> simp [hk', ih]

theorem insertA_self {κ ν : Type} [DecidableEq κ] (l : List (κ × ν))
    (k : κ) (v : ν) (h : lookupA l k = some v) : insertA l k v = l := by
  induction l with
  | nil => simp [lookupA] at h
  | cons hd tl ih =>
      obtain ⟨k₀, v₀⟩ := hd
      by_cases hk : k₀ = k
      · subst hk
        simp [lookupA] at h
        simp [insertA, h]
      · simp [lookupA, hk] at h
        simp [insertA, hk, ih h]

theorem getGo_append (pre suf : List String) (t : CVarTreeNode) :
    getGo t (pre ++ suf) = (walkPath t pre).bind (fun u => getGo u suf) := by
  induction pre generalizing t with
  | nil => simp [walkPath]
  | cons s pre ih =>
      cases t with
      | Leaf n r => simp [getGo, walkPath]
      | Branch d =>
          simp only [List.cons_append, getGo, walkPath]
          cases lookupA d s with
          | none => simp
          | some c => simpa using ih c

/-! ### C5 — trie lookup -/

/-- C5: `CVarTreeNode::get` returns `some handle` exactly when the dotted
segments walk through `Branch` nodes and end on a `Leaf` at the final segment
(the inductive `LeafAt`); it returns `none` whenever the walk reaches a `Leaf`
before the final segment, a walked segment is missing from its branch, or the
node at the final segment is a `Branch`; and the string-level `get` is the
segment walk over the dotted split. -/
theorem cvarTreeGet_characterisation (t : CVarTreeNode) (segs : List String) :
    (∀ r, getGo t segs = some r ↔ LeafAt t segs r) ∧
    (∀ pre suf n r, segs = pre ++ suf → suf ≠ [] →
      walkPath t pre = some (.Leaf n r) → getGo t segs = none) ∧
    (∀ pre s suf d, segs = pre ++ s :: suf → walkPath t pre = some (.Branch d) →
      lookupA d s = none → getGo t segs = none) ∧
    (∀ pre k d d₂, segs = pre ++ [k] → walkPath t pre = some (.Branch d) →
      lookupA d k = some (.Branch d₂) → getGo t segs = none) ∧
    (∀ name, CVarTreeNode.get t name = getGo t (splitDots name)) := by
  refine ⟨?_, ?_, ?_, ?_, fun _ => rfl⟩
  · intro r
    induction segs generalizing t with
    | nil =>
        cases t with
        | Leaf n reg =>
            simp only [getGo, Option.some.injEq]
            constructor
            · rintro rfl; exact .leaf n reg
            · intro h; cases h; rfl
        | Branch d =>
            simp only [getGo]
            exact ⟨nofun, nofun⟩
    | cons s rest ih =>
        cases t with
        | Leaf n reg =>
            simp only [getGo]
            exact ⟨nofun, nofun⟩
        | Branch d =>
            simp only [getGo]
            cases hl : lookupA d s with
            | none =>
                constructor
                · exact nofun
                · intro h
                  cases h with
                  | step hl₂ hrest => rw [hl] at hl₂; cases hl₂
            | some c =>
                rw [ih c]
                constructor
                · intro h; exact .step hl h
                · intro h
                  cases h with
                  | step hl₂ hrest =>
                      rw [hl] at hl₂
                      cases hl₂
                      exact hrest
  · rintro pre suf n r rfl hsuf hwalk
    rw [getGo_append, hwalk]
    cases suf with
    | nil => cases hsuf rfl
    | cons a l => simp [getGo]
  · rintro pre s suf d rfl hwalk hl
    rw [getGo_append, hwalk]
    simp [getGo, hl]
  · rintro pre k d d₂ rfl hwalk hl
    rw [getGo_append, hwalk]
    simp [getGo, hl]

/-! ### C3 — registration collisions -/

theorem insertGo_dup_of_get (segs : List String) :
    ∀ t r reg, segs ≠ [] → getGo t segs = some r →
      ∃ t₂, insertGo t segs reg = .error (.duplicateCVar, t₂) := by
  induction segs with
  | nil => intro t r reg h _; cases h rfl
  | cons s rest ih =>
      intro t r reg _ hget
      cases t with
      | Leaf n r₀ => simp [getGo] at hget
      | Branch d =>
          simp only [getGo] at hget
          cases hl : lookupA d s with
          | none => rw [hl] at hget; exact Option.noConfusion hget
          | some c =>
              rw [hl] at hget
              cases rest with
              | nil =>
                  exact ⟨.Branch (insertA d s (.Leaf s reg)),
                    by simp [insertGo, CVarTreeNode.insertLeaf, hl]⟩
              | cons a l =>
                  obtain ⟨t₂, ht₂⟩ := ih c r reg (by simp) hget
                  exact ⟨.Branch (insertA d s t₂), by simp [insertGo, hl, ht₂]⟩

theorem insertGo_leafNode (suf : List String) (n : String) (r reg : Nat)
    (h : suf ≠ []) :
    ∃ e, (e = RegPanic.branchIntoTerminating ∨ e = RegPanic.leafIntoTerminating) ∧
      insertGo (.Leaf n r) suf reg = .error (e, .Leaf n r) := by
  cases suf with
  | nil => cases h rfl
  | cons a l =>
      cases l with
      | nil => exact ⟨.leafIntoTerminating, .inr rfl, rfl⟩
      | cons b l₂ => exact ⟨.branchIntoTerminating, .inl rfl, rfl⟩

theorem insertGo_propagate (pre : List String) :
    ∀ t u suf reg e t₂, suf ≠ [] → walkPath t pre = some u →
      insertGo u suf reg = .error (e, t₂) →
      ∃ t₃, insertGo t (pre ++ suf) reg = .error (e, t₃) := by
  induction pre with
  | nil =>
      intro t u suf reg e t₂ _ hw hi
      simp only [walkPath, Option.some.injEq] at hw
      subst hw
      exact ⟨t₂, hi⟩
  | cons s pre ih =>
      intro t u suf reg e t₂ hsuf hw hi
      cases t with
      | Leaf n r => simp [walkPath] at hw
      | Branch d =>
          simp only [walkPath] at hw
          cases hl : lookupA d s with
          | none => rw [hl] at hw; exact Option.noConfusion hw
          | some c =>
              rw [hl] at hw
              obtain ⟨t₃, ht₃⟩ := ih c u suf reg e t₂ hsuf hw hi
              refine ⟨.Branch (insertA d s t₃), ?_⟩
              cases hps : pre ++ suf with
              | nil => exact absurd (List.append_eq_nil.mp hps).2 hsuf
              | cons a l =>
                  rw [List.cons_append, hps]
                  rw [hps] at ht₃
                  simp [insertGo, hl, ht₃]

theorem insertGo_propagate_eq (pre : List String) :
    ∀ t u suf reg e, suf ≠ [] → walkPath t pre = some u →
      insertGo u suf reg = .error (e, u) →
      insertGo t (pre ++ suf) reg = .error (e, t) := by
  induction pre with
  | nil =>
      intro t u suf reg e _ hw hi
      simp only [walkPath, Option.some.injEq] at hw
      subst hw
      exact hi
  | cons s pre ih =>
      intro t u suf reg e hsuf hw hi
      cases t with
      | Leaf n r => simp [walkPath] at hw
      | Branch d =>
          simp only [walkPath] at hw
          cases hl : lookupA d s with
          | none => rw [hl] at hw; exact Option.noConfusion hw
          | some c =>
              rw [hl] at hw
              have hrec := ih c u suf reg e hsuf hw hi
              have hself : insertA d s c = d := insertA_self d s c hl
              cases hps : pre ++ suf with
              | nil => exact absurd (List.append_eq_nil.mp hps).2 hsuf
              | cons a l =>
                  rw [List.cons_append, hps]
                  rw [hps] at hrec
                  simp [insertGo, hl, hrec, hself]

theorem insertGo_final_collision (pre : List String) (k : String)
    (t : CVarTreeNode) (d : List (String × CVarTreeNode)) (c : CVarTreeNode)
    (reg : Nat) (hw : walkPath t pre = some (.Branch d))
    (hl : lookupA d k = some c) :
    ∃ t₂, insertGo t (pre ++ [k]) reg = .error (.duplicateCVar, t₂) := by
  have hbase : insertGo (.Branch d) [k] reg =
      .error (.duplicateCVar, .Branch (insertA d k (.Leaf k reg))) := by
    simp [insertGo, CVarTreeNode.insertLeaf, hl]
  exact insertGo_propagate pre t (.Branch d) [k] reg .duplicateCVar _ (by simp)
    hw hbase

/-- C3 (amended): registering a path whose final segment already holds a
`Leaf` or a `Branch`, or any of whose intermediate segments already holds a
`Leaf`, aborts fatally — the insert produces a panic, never a success — so no
registration ever silently succeeds over an existing one; on an
intermediate-segment `Leaf` collision the trie is unmodified at the abort.
(The original claim's stronger statement that the previous trie mapping is
never replaced before the abort is refuted by
`cvarTreeInsert_overwrite_counterexample`: at final-segment collisions the
`HashMap::insert` inside `insert_leaf` has already replaced the binding when
the duplicate assertion fires.) -/
theorem cvarTreeInsert_collisions (t : CVarTreeNode) (segs : List String)
    (reg : Nat) :
    (∀ r, segs ≠ [] → getGo t segs = some r →
      ∃ t₂, insertGo t segs reg = .error (.duplicateCVar, t₂)) ∧
    (∀ pre k d c, segs = pre ++ [k] → walkPath t pre = some (.Branch d) →
      lookupA d k = some c →
      ∃ t₂, insertGo t segs reg = .error (.duplicateCVar, t₂)) ∧
    (∀ pre suf n r, segs = pre ++ suf → suf ≠ [] →
      walkPath t pre = some (.Leaf n r) →
      ∃ e, (e = RegPanic.branchIntoTerminating ∨ e = RegPanic.leafIntoTerminating) ∧
        insertGo t segs reg = .error (e, t)) ∧
    (∀ name, CVarTreeNode.insert t name reg = insertGo t (splitDots name) reg) := by
  refine ⟨fun r => insertGo_dup_of_get segs t r reg, ?_, ?_, fun _ => rfl⟩
  · rintro pre k d c rfl hw hl
    exact insertGo_final_collision pre k t d c reg hw hl
  · rintro pre suf n r rfl hsuf hw
    obtain ⟨e, he, hins⟩ := insertGo_leafNode suf n r reg hsuf
    exact ⟨e, he, insertGo_propagate_eq pre t (.Leaf n r) suf reg e hsuf hw hins⟩

/-- Counterexample for C3 as stated: on the tree where `a.b` is registered
with id 0, inserting `a.b` with id 1 aborts with the duplicate panic, but the
tree state at the moment of the abort already maps `a.b` to the rejected id 1
— the previous trie mapping *was* replaced before the abort. -/
theorem cvarTreeInsert_overwrite_counterexample :
    CVarTreeNode.insert dupTree "a.b" 1 =
      .error (.duplicateCVar, .Branch [("a", .Branch [("b", .Leaf "b" 1)])]) ∧
    (CVarTreeNode.Branch [("a", .Branch [("b", .Leaf "b" 1)])]).get "a.b" =
      some 1 ∧
    dupTree.get "a.b" = some 0 :=
  ⟨rfl, rfl, rfl⟩

/-- Witness for C3 on concrete trees: a duplicate registration aborts, and an
attempt to nest under the scalar entry `a.b` aborts leaving the trie
unmodified. -/
theorem cvarTreeInsert_collisions_witness :
    (∃ t₂, insertGo dupTree ["a", "b"] 1 = .error (.duplicateCVar, t₂)) ∧
    (∃ e, (e = RegPanic.branchIntoTerminating ∨ e = RegPanic.leafIntoTerminating) ∧
      insertGo dupTree ["a", "b", "c"] 9 = .error (e, dupTree)) := by
  constructor
  · exact (cvarTreeInsert_collisions dupTree ["a", "b"] 1).1 0 (by simp) rfl
  · exact (cvarTreeInsert_collisions dupTree ["a", "b", "c"] 9).2.2.1 ["a", "b"]
      ["c"] "b" 0 rfl (by simp) rfl

/-! ### C10 — override parsing -/

theorem splitOnce_some_iff (c : Char) (xs : List Char) (l r : List Char) :
    splitOnce c xs = some (l, r) ↔ xs = l ++ c :: r ∧ c ∉ l := by
  induction xs generalizing l with
  | nil =>
      simp only [splitOnce]
      constructor
      · exact nofun
      · rintro ⟨h, _⟩
        exfalso
        have := congrArg List.length h
        simp at this
        omega
  | cons x xs ih =>
      simp only [splitOnce]
      by_cases hx : x = c
      · subst hx
        simp only [eq_self_iff_true, if_true, Option.some.injEq, Prod.mk.injEq]
        constructor
        · rintro ⟨rfl, rfl⟩
          simp
        · rintro ⟨h, hnot⟩
          cases l with
          | nil =>
              simp only [List.nil_append, List.cons.injEq, true_and] at h
              exact ⟨rfl, h⟩
          | cons a l₂ =>
              simp only [List.cons_append, List.cons.injEq] at h
              obtain ⟨rfl, -⟩ := h
              simp at hnot
      · simp only [if_neg hx]
        constructor
        · intro h
          obtain ⟨⟨l₂, r₂⟩, hp, heq⟩ := Option.map_eq_some'.mp h
          obtain ⟨hl, hr⟩ := Prod.mk.injEq .. |>.mp heq
          subst hl
          subst hr
          obtain ⟨hxs, hnot⟩ := (ih l₂).mp hp
          subst hxs
          refine ⟨rfl, ?_⟩
          simp only [List.mem_cons]
          rintro (rfl | hmem)
          · exact hx rfl
          · exact hnot hmem
        · rintro ⟨h, hnot⟩
          cases l with
          | nil =>
              simp only [List.nil_append, List.cons.injEq] at h
              exact absurd h.1 hx
          | cons a l₂ =>
              simp only [List.cons_append, List.cons.injEq] at h
              obtain ⟨rfl, hxs⟩ := h
              simp only [List.mem_cons, not_or] at hnot
              rw [(ih l₂).mpr ⟨hxs, hnot.2⟩]
              rfl

theorem splitOnce_none_iff (c : Char) (xs : List Char) :
    splitOnce c xs = none ↔ c ∉ xs := by
  induction xs with
  | nil => simp [splitOnce]
  | cons x xs ih =>
      simp only [splitOnce, List.mem_cons]
      by_cases hx : x = c
      · subst hx
        simp
      · have hxc : ¬ c = x := fun hh => hx hh.symm
        simp only [if_neg hx, Option.map_eq_none', ih]
        simp [hxc]

/-- C10: for every input string, override parsing returns exactly one of: ok
with the text left of the first `=` (any left-hand side, including the empty
string, is accepted unvalidated) and the parsed TOML value;
`DoesntLookLikeAnOverride` exactly when the string has no `=`; `InvalidToml`
when the text after the first `=` does not parse as a TOML value. The declared
`InvalidPath` variant is never returned. -/
theorem overrideParse_characterisation (tp : String → Option CVal) (s : String) :
    (CVarOverride.tryFrom tp s = .error .DoesntLookLikeAnOverride ↔
      '=' ∉ s.toList) ∧
    (∀ l r, splitOnce '=' s.toList = some (l, r) ↔
      (s.toList = l ++ '=' :: r ∧ '=' ∉ l)) ∧
    (∀ l r, splitOnce '=' s.toList = some (l, r) → tp (String.mk r) = none →
      CVarOverride.tryFrom tp s = .error .InvalidToml) ∧
    (∀ l r v, splitOnce '=' s.toList = some (l, r) → tp (String.mk r) = some v →
      CVarOverride.tryFrom tp s = .ok ⟨String.mk l, v⟩) ∧
    CVarOverride.tryFrom tp s ≠ .error .InvalidPath := by
  refine ⟨?_, fun l r => splitOnce_some_iff '=' s.toList l r, ?_, ?_, ?_⟩
  · rw [← splitOnce_none_iff]
    simp only [String.toList]
    cases h : splitOnce '=' s.data with
    | none => simp [CVarOverride.tryFrom, h]
    | some p =>
        obtain ⟨l, r⟩ := p
        cases htp : tp (String.mk r) <;>
          simp [CVarOverride.tryFrom, h, htp]
  · intro l r h htp
    simp only [String.toList] at h
    simp [CVarOverride.tryFrom, h, htp]
  · intro l r v h htp
    simp only [String.toList] at h
    simp [CVarOverride.tryFrom, h, htp]
  · cases h : splitOnce '=' s.data with
    | none => simp [CVarOverride.tryFrom, h]
    | some p =>
        obtain ⟨l, r⟩ := p
        cases htp : tp (String.mk r) <;>
          simp [CVarOverride.tryFrom, h, htp]

/-- Witness for C10 on the spec's own examples, under the fixture TOML value
parser accepting exactly `3`. -/
theorem overrideParse_characterisation_witness :
    CVarOverride.tryFrom tpFix "noequalsign" = .error .DoesntLookLikeAnOverride ∧
    CVarOverride.tryFrom tpFix "a.b=][" = .error .InvalidToml ∧
    CVarOverride.tryFrom tpFix "a.b=3" = .ok ⟨"a.b", .intV 3⟩ ∧
    CVarOverride.tryFrom tpFix "=3" = .ok ⟨"", .intV 3⟩ := by
  refine ⟨?_, ?_, ?_, ?_⟩
  · exact (overrideParse_characterisation tpFix "noequalsign").1.mpr (by decide)
  · exact (overrideParse_characterisation tpFix "a.b=][").2.2.1
      "a.b".toList "][".toList rfl rfl
  · exact (overrideParse_characterisation tpFix "a.b=3").2.2.2.1
      "a.b".toList "3".toList (.intV 3) rfl rfl
  · exact (overrideParse_characterisation tpFix "=3").2.2.2.1
      "".toList "3".toList (.intV 3) rfl rfl

/-! ### Set/get pipeline lemmas -/

theorem tryApply_eq (cur patch newVal : CVal)
    (h : tryApply cur patch = some newVal) : newVal = patch := by
  unfold tryApply at h
  split at h
  · exact (Option.some.inj h).symm
  · exact Option.noConfusion h

theorem setCVarDeserialize_ok_inv (mgmt : CVarManagement) (world : WorldState)
    (cvar : String) (raw : CVal) (mode : CVarModifyMode) (w₂ : WorldState)
    (h : setCVarDeserialize mgmt world cvar raw mode = .ok w₂) :
    ∃ cid tyReg d patch cell newVal,
      mgmt.tree.get cvar = some cid ∧
      lookupA mgmt.resources cid = some tyReg ∧
      (lookupA world.typeRegistry tyReg.innerType).bind (fun e => e.deser) = some d ∧
      d raw = some patch ∧
      lookupA world.cells cid = some cell ∧
      tryApply cell.value patch = some newVal ∧
      w₂ = { world with cells := insertA world.cells cid (modeCell mode newVal cell.added world.tick) } := by
  simp only [setCVarDeserialize] at h
  split at h
  · exact Except.noConfusion h
  next cid hg =>
    split at h
    · exact Except.noConfusion h
    next tyReg hty =>
      split at h
      · exact Except.noConfusion h
      next d hd =>
        split at h
        · exact Except.noConfusion h
        next patch hp =>
          split at h
          · exact Except.noConfusion h
          next cell hc =>
            split at h
            · exact Except.noConfusion h
            next newVal hn =>
              exact ⟨cid, tyReg, d, patch, cell, newVal, hg, hty, hd, hp, hc, hn,
                (Except.ok.inj h).symm⟩

theorem setCVarDeserialize_cells_frame (mgmt : CVarManagement)
    (world : WorldState) (cvar : String) (raw : CVal) (mode : CVarModifyMode)
    (w₂ : WorldState) (cid₂ : Nat)
    (h : setCVarDeserialize mgmt world cvar raw mode = .ok w₂)
    (hne : mgmt.tree.get cvar ≠ some cid₂) :
    lookupA w₂.cells cid₂ = lookupA world.cells cid₂ := by
  obtain ⟨cid, _, _, _, _, _, hg, _, _, _, _, _, hw⟩ :=
    setCVarDeserialize_ok_inv mgmt world cvar raw mode w₂ h
  subst hw
  have hcid : cid₂ ≠ cid := fun hh => hne (hh ▸ hg)
  exact lookupA_insertA_ne world.cells cid cid₂ _ hcid

theorem setCVarDeserialize_registry_tick (mgmt : CVarManagement)
    (world : WorldState) (cvar : String) (raw : CVal) (mode : CVarModifyMode)
    (w₂ : WorldState)
    (h : setCVarDeserialize mgmt world cvar raw mode = .ok w₂) :
    w₂.typeRegistry = world.typeRegistry ∧ w₂.tick = world.tick := by
  obtain ⟨_, _, _, _, _, _, _, _, _, _, _, _, hw⟩ :=
    setCVarDeserialize_ok_inv mgmt world cvar raw mode w₂ h
  subst hw
  exact ⟨rfl, rfl⟩

theorem setCVarDeserialize_silent_default (mgmt : CVarManagement)
    (world : WorldState) (cvar : String) (raw : CVal) (w₂ : WorldState)
    (h : setCVarDeserialize mgmt world cvar raw .silent = .ok w₂) :
    ∃ cid cell, mgmt.tree.get cvar = some cid ∧
      lookupA w₂.cells cid = some cell ∧ cell.isDefault = true := by
  obtain ⟨cid, _, _, _, _, newVal, hg, _, _, _, _, _, hw⟩ :=
    setCVarDeserialize_ok_inv mgmt world cvar raw .silent w₂ h
  subst hw
  refine ⟨cid, ⟨newVal, world.tick, world.tick⟩, hg, ?_, ?_⟩
  · exact lookupA_insertA_self world.cells cid _
  · simp [Cell.isDefault]

theorem applyCVars_append_ok (mgmt : CVarManagement)
    (l₁ l₂ : List (String × TomlItem)) : ∀ world w₁,
    applyCVars mgmt world l₁ = (w₁, none) →
    applyCVars mgmt world (l₁ ++ l₂) = applyCVars mgmt w₁ l₂ := by
  induction l₁ with
  | nil =>
      intro world w₁ h
      simp only [applyCVars] at h
      obtain ⟨rfl, -⟩ := Prod.mk.injEq .. |>.mp h
      rfl
  | cons hd tl ih =>
      intro world w₁ h
      obtain ⟨c, item⟩ := hd
      cases item with
      | value v =>
          simp only [applyCVars] at h ⊢
          cases hset : setCVarDeserialize mgmt world c v .silent with
          | error e =>
              rw [hset] at h
              simp at h
          | ok w₃ =>
              rw [hset] at h
              simpa using ih w₃ w₁ h
      | table t => simpa [applyCVars] using ih world w₁ (by simpa [applyCVars] using h)
      | noneItem => simpa [applyCVars] using ih world w₁ (by simpa [applyCVars] using h)
      | arrayOfTables => simpa [applyCVars] using ih world w₁ (by simpa [applyCVars] using h)

theorem applyCVars_preserves_default (mgmt : CVarManagement) :
    ∀ (l : List (String × TomlItem)) world w₂ cid cell,
    applyCVars mgmt world l = (w₂, none) →
    lookupA world.cells cid = some cell → cell.isDefault = true →
    ∃ cell₂, lookupA w₂.cells cid = some cell₂ ∧ cell₂.isDefault = true := by
  intro l
  induction l with
  | nil =>
      intro world w₂ cid cell h hc hdef
      simp only [applyCVars] at h
      obtain ⟨rfl, -⟩ := Prod.mk.injEq .. |>.mp h
      exact ⟨cell, hc, hdef⟩
  | cons hd tl ih =>
      intro world w₂ cid cell h hc hdef
      obtain ⟨c, item⟩ := hd
      cases item with
      | value v =>
          simp only [applyCVars] at h
          cases hset : setCVarDeserialize mgmt world c v .silent with
          | error e => rw [hset] at h; simp at h
          | ok w₃ =>
              rw [hset] at h
              obtain ⟨cid₀, _, _, _, cell₀, newVal, hg, _, _, _, hc₀, _, hw⟩ :=
                setCVarDeserialize_ok_inv mgmt world c v .silent w₃ hset
              by_cases hcid : cid₀ = cid
              · subst hcid
                subst hw
                exact ih _ w₂ cid₀ _ h
                  (lookupA_insertA_self world.cells cid₀ _)
                  (by simp [Cell.isDefault, modeCell])
              · subst hw
                refine ih _ w₂ cid cell h ?_ hdef
                simpa [lookupA_insertA_ne world.cells cid₀ cid _
                  (fun hh => hcid hh.symm)] using hc
      | table t => exact ih world w₂ cid cell (by simpa [applyCVars] using h) hc hdef
      | noneItem => exact ih world w₂ cid cell (by simpa [applyCVars] using h) hc hdef
      | arrayOfTables =>
          exact ih world w₂ cid cell (by simpa [applyCVars] using h) hc hdef

theorem applyCVars_frame (mgmt : CVarManagement) :
    ∀ (l : List (String × TomlItem)) world w₂ r cid,
    applyCVars mgmt world l = (w₂, r) →
    (∀ n v, (n, TomlItem.value v) ∈ l → mgmt.tree.get n ≠ some cid) →
    lookupA w₂.cells cid = lookupA world.cells cid := by
  intro l
  induction l with
  | nil =>
      intro world w₂ r cid h _
      simp only [applyCVars] at h
      obtain ⟨rfl, -⟩ := Prod.mk.injEq .. |>.mp h
      rfl
  | cons hd tl ih =>
      intro world w₂ r cid h hne
      obtain ⟨c, item⟩ := hd
      cases item with
      | value v =>
          simp only [applyCVars] at h
          cases hset : setCVarDeserialize mgmt world c v .silent with
          | error e =>
              rw [hset] at h
              obtain ⟨rfl, -⟩ := Prod.mk.injEq .. |>.mp h
              rfl
          | ok w₃ =>
              rw [hset] at h
              have h₁ := ih w₃ w₂ r cid h
                (fun n v₂ hm => hne n v₂ (List.mem_cons_of_mem _ hm))
              have h₂ := setCVarDeserialize_cells_frame mgmt world c v .silent w₃
                cid hset (hne c v (List.mem_cons_self ..))
              rw [h₁, h₂]
      | table t =>
          exact ih world w₂ r cid (by simpa [applyCVars] using h)
            (fun n v₂ hm => hne n v₂ (List.mem_cons_of_mem _ hm))
      | noneItem =>
          exact ih world w₂ r cid (by simpa [applyCVars] using h)
            (fun n v₂ hm => hne n v₂ (List.mem_cons_of_mem _ hm))
      | arrayOfTables =>
          exact ih world w₂ r cid (by simpa [applyCVars] using h)
            (fun n v₂ hm => hne n v₂ (List.mem_cons_of_mem _ hm))

/-! ### C7 — set then get round-trip -/

/-- C7: for a registered path, a successful
`set_value_from_serialized(P, V, Normal)` followed by `get_value(P)` yields a
value equal to `V` (the deserialized patch of the raw input). -/
theorem setThenGet_roundtrip (mgmt : CVarManagement) (world : WorldState)
    (cvar : String) (raw V : CVal) (w₂ : WorldState)
    (hset : setCVarDeserialize mgmt world cvar raw .normal = .ok w₂)
    (hdes : deserializeForPath mgmt world cvar raw = some V) :
    getCVarReflect mgmt w₂ cvar = some V := by
  obtain ⟨cid, tyReg, d, patch, cell, newVal, hg, hty, hd, hp, hc, hn, hw⟩ :=
    setCVarDeserialize_ok_inv mgmt world cvar raw .normal w₂ hset
  have hV : patch = V := by
    simp only [deserializeForPath, hg, hty, hd] at hdes
    rw [hp] at hdes
    exact Option.some.inj hdes
  have hnv : newVal = patch := tryApply_eq cell.value patch newVal hn
  subst hw
  simp only [getCVarReflect, hg, hty]
  rw [lookupA_insertA_self world.cells cid _]
  simp [hnv, hV, modeCell]

/-- Witness for C7: on the fixture world, writing `37` into
`testrig.test_int` with a `Normal` write and reading it back yields `37`. -/
theorem setThenGet_roundtrip_witness :
    getCVarReflect mgmtFix
      ⟨[(3, ⟨.boolV true, 0, 0⟩), (7, ⟨.intV 37, 0, 9⟩)], regFix, 9⟩
      "testrig.test_int" = some (.intV 37) :=
  setThenGet_roundtrip mgmtFix worldFix "testrig.test_int" (.intV 37)
    (.intV 37) _ rfl rfl

/-! ### C8 — error discipline of `set_cvar_deserialize` -/

/-- C8: `set_cvar_deserialize` fails with `UnknownCVar` when the path does not
resolve to a registered leaf; with `CannotDeserialize` when the entry's inner
type declares no deserializer; with `FailedDeserialize(detail)` when the raw
input is rejected by the deserializer; with `BadCVarType`/`FailedApply` when
the resource cannot be fetched or the patch's structural shape does not match
— checked in exactly that order — and returns `Ok` exactly when every check
passes. (The `MissingCid` probe between the first two checks is unreachable
for a registry whose trie ids are all registered, which the successful
`lookupA mgmt.resources cid` hypotheses of the later conjuncts express.) -/
theorem setCVarDeserialize_error_order (mgmt : CVarManagement)
    (world : WorldState) (cvar : String) (raw : CVal) (mode : CVarModifyMode) :
    (mgmt.tree.get cvar = none →
      setCVarDeserialize mgmt world cvar raw mode = .error .UnknownCVar) ∧
    (∀ cid tyReg, mgmt.tree.get cvar = some cid →
      lookupA mgmt.resources cid = some tyReg →
      (lookupA world.typeRegistry tyReg.innerType).bind (fun e => e.deser) = none →
      setCVarDeserialize mgmt world cvar raw mode = .error .CannotDeserialize) ∧
    (∀ cid tyReg d, mgmt.tree.get cvar = some cid →
      lookupA mgmt.resources cid = some tyReg →
      (lookupA world.typeRegistry tyReg.innerType).bind (fun e => e.deser) = some d →
      d raw = none →
      setCVarDeserialize mgmt world cvar raw mode =
        .error (.FailedDeserialize "deserializer rejected the value")) ∧
    (∀ cid tyReg d patch, mgmt.tree.get cvar = some cid →
      lookupA mgmt.resources cid = some tyReg →
      (lookupA world.typeRegistry tyReg.innerType).bind (fun e => e.deser) = some d →
      d raw = some patch → lookupA world.cells cid = none →
      setCVarDeserialize mgmt world cvar raw mode = .error .BadCVarType) ∧
    (∀ cid tyReg d patch cell, mgmt.tree.get cvar = some cid →
      lookupA mgmt.resources cid = some tyReg →
      (lookupA world.typeRegistry tyReg.innerType).bind (fun e => e.deser) = some d →
      d raw = some patch → lookupA world.cells cid = some cell →
      tryApply cell.value patch = none →
      setCVarDeserialize mgmt world cvar raw mode = .error .FailedApply) ∧
    (∀ cid tyReg d patch cell newVal, mgmt.tree.get cvar = some cid →
      lookupA mgmt.resources cid = some tyReg →
      (lookupA world.typeRegistry tyReg.innerType).bind (fun e => e.deser) = some d →
      d raw = some patch → lookupA world.cells cid = some cell →
      tryApply cell.value patch = some newVal →
      setCVarDeserialize mgmt world cvar raw mode =
        .ok { world with cells := insertA world.cells cid (modeCell mode newVal cell.added world.tick) }) := by
  refine ⟨?_, ?_, ?_, ?_, ?_, ?_⟩
  · intro h
    simp [setCVarDeserialize, h]
  · intro cid tyReg h₁ h₂ h₃
    simp [setCVarDeserialize, h₁, h₂, h₃]
  · intro cid tyReg d h₁ h₂ h₃ h₄
    simp [setCVarDeserialize, h₁, h₂, h₃, h₄]
  · intro cid tyReg d patch h₁ h₂ h₃ h₄ h₅
    simp [setCVarDeserialize, h₁, h₂, h₃, h₄, h₅]
  · intro cid tyReg d patch cell h₁ h₂ h₃ h₄ h₅ h₆
    simp [setCVarDeserialize, h₁, h₂, h₃, h₄, h₅, h₆]
  · intro cid tyReg d patch cell newVal h₁ h₂ h₃ h₄ h₅ h₆
    simp [setCVarDeserialize, h₁, h₂, h₃, h₄, h₅, h₆, modeCell]

/-- Witness for C8 on the fixture: an unregistered path yields `UnknownCVar`,
and a type-mismatched raw value at a registered path yields
`FailedDeserialize`. -/
theorem setCVarDeserialize_error_order_witness :
    setCVarDeserialize mgmtFix worldFix "testrig.not_real" (.intV 1) .normal =
      .error .UnknownCVar ∧
    setCVarDeserialize mgmtFix worldFix "testrig.test_int" (.strV "awawa")
      .normal = .error (.FailedDeserialize "deserializer rejected the value") := by
  constructor
  · exact (setCVarDeserialize_error_order mgmtFix worldFix "testrig.not_real"
      (.intV 1) .normal).1 rfl
  · exact (setCVarDeserialize_error_order mgmtFix worldFix "testrig.test_int"
      (.strV "awawa") .normal).2.2.1 7 ⟨1, "testrig.test_int", 5⟩ intDeser
      rfl rfl rfl rfl

/-! ### C1 — Silent writes read as default, Normal writes do not -/

/-- C1: applying a parsed override (`set_cvar_with_override`) or applying a
loaded document layer performs `Silent` writes — every registered path so
written satisfies `is_default` immediately afterwards — whereas after a
`Normal` runtime write (at a tick different from the cell's added tick)
`is_default` is false. -/
theorem silentWrite_isDefault (mgmt : CVarManagement) (world : WorldState) :
    (∀ ov w₂, setCVarWithOverride mgmt world ov = .ok w₂ →
      ∃ cid cell, mgmt.tree.get ov.path = some cid ∧
        lookupA w₂.cells cid = some cell ∧ cell.isDefault = true) ∧
    (∀ entries w₂, applyCVars mgmt world entries = (w₂, none) →
      ∀ n v, (n, TomlItem.value v) ∈ entries →
      ∃ cid cell, mgmt.tree.get n = some cid ∧
        lookupA w₂.cells cid = some cell ∧ cell.isDefault = true) ∧
    (∀ cvar raw w₂ cid cell,
      setCVarDeserialize mgmt world cvar raw .normal = .ok w₂ →
      mgmt.tree.get cvar = some cid → lookupA world.cells cid = some cell →
      cell.added ≠ world.tick →
      ∃ cell₂, lookupA w₂.cells cid = some cell₂ ∧ cell₂.isDefault = false) := by
  refine ⟨?_, ?_, ?_⟩
  · intro ov w₂ h
    exact setCVarDeserialize_silent_default mgmt world ov.path ov.value w₂ h
  · intro entries
    induction entries generalizing world with
    | nil => intro w₂ _ n v hm; cases hm
    | cons hd tl ih =>
        intro w₂ h n v hm
        obtain ⟨c, item⟩ := hd
        cases item with
        | value v₀ =>
            simp only [applyCVars] at h
            cases hset : setCVarDeserialize mgmt world c v₀ .silent with
            | error e => rw [hset] at h; simp at h
            | ok w₃ =>
                rw [hset] at h
                rcases List.mem_cons.mp hm with hm₀ | hm₁
                · obtain ⟨heq, hv⟩ := Prod.mk.injEq .. |>.mp hm₀
                  obtain ⟨cid, cell, hg, hc, hdef⟩ :=
                    setCVarDeserialize_silent_default mgmt world c v₀ w₃ hset
                  obtain ⟨cell₂, hc₂, hdef₂⟩ :=
                    applyCVars_preserves_default mgmt tl w₃ w₂ cid cell h hc hdef
                  refine ⟨cid, cell₂, ?_, hc₂, hdef₂⟩
                  rw [heq]
                  exact hg
                · exact ih w₃ w₂ h n v hm₁
        | table t =>
            rcases List.mem_cons.mp hm with hm₀ | hm₁
            · exact absurd hm₀ (by simp)
            · exact ih world w₂ (by simpa [applyCVars] using h) n v hm₁
        | noneItem =>
            rcases List.mem_cons.mp hm with hm₀ | hm₁
            · exact absurd hm₀ (by simp)
            · exact ih world w₂ (by simpa [applyCVars] using h) n v hm₁
        | arrayOfTables =>
            rcases List.mem_cons.mp hm with hm₀ | hm₁
            · exact absurd hm₀ (by simp)
            · exact ih world w₂ (by simpa [applyCVars] using h) n v hm₁
  · intro cvar raw w₂ cid cell hset hg hc hne
    obtain ⟨cid₀, _, _, _, cell₀, newVal, hg₀, _, _, _, hc₀, _, hw⟩ :=
      setCVarDeserialize_ok_inv mgmt world cvar raw .normal w₂ hset
    subst hw
    have hcid : cid₀ = cid := by
      rw [hg] at hg₀
      exact (Option.some.inj hg₀).symm
    subst hcid
    have hcell : cell₀ = cell := by
      rw [hc] at hc₀
      exact (Option.some.inj hc₀).symm
    subst hcell
    refine ⟨modeCell .normal newVal cell₀.added world.tick,
      lookupA_insertA_self world.cells cid₀ _, ?_⟩
    simp only [modeCell, Cell.isDefault]
    exact beq_eq_false_iff_ne.mpr hne

/-- Witness for C1 on the fixture: the override `testrig.test_int=37` applied
silently reads as default afterwards, while a `Normal` write of the same value
does not. -/
theorem silentWrite_isDefault_witness :
    (∃ cid cell, mgmtFix.tree.get "testrig.test_int" = some cid ∧
      lookupA (insertA worldFix.cells 7 ⟨.intV 37, 9, 9⟩) cid = some cell ∧
      cell.isDefault = true) ∧
    (∃ cell₂, lookupA (insertA worldFix.cells 7 ⟨.intV 37, 0, 9⟩) 7 =
      some cell₂ ∧ cell₂.isDefault = false) := by
  constructor
  · exact (silentWrite_isDefault mgmtFix worldFix).1 ⟨"testrig.test_int", .intV 37⟩
      ⟨insertA worldFix.cells 7 ⟨.intV 37, 9, 9⟩, regFix, 9⟩ rfl
  · exact (silentWrite_isDefault mgmtFix worldFix).2.2 "testrig.test_int"
      (.intV 37) ⟨insertA worldFix.cells 7 ⟨.intV 37, 0, 9⟩, regFix, 9⟩ 7
      ⟨.intV (-5), 0, 0⟩ rfl rfl rfl (by decide)

/-! ### C6 — a failing staged entry aborts the document without rollback -/

/-- C6: when applying one document's staged entries in order, a deserialize
failure on one entry makes the apply loop return that error with the world
exactly as produced by the earlier entries (and by all previously applied
layers, which `world` already contains): the remaining staged entries are
never attempted and nothing is rolled back. -/
theorem applyAborts_noRollback (mgmt : CVarManagement) (world : WorldState)
    (pre post : List (String × TomlItem)) (name : String) (v : CVal)
    (w₁ : WorldState) (e : CVarError)
    (hpre : applyCVars mgmt world pre = (w₁, none))
    (hfail : setCVarDeserialize mgmt w₁ name v .silent = .error e) :
    applyCVars mgmt world (pre ++ (name, TomlItem.value v) :: post) =
      (w₁, some e) := by
  rw [applyCVars_append_ok mgmt pre ((name, TomlItem.value v) :: post) world w₁
    hpre]
  simp [applyCVars, hfail]

/-- Witness for C6 on the fixture: after one successful staged entry, a
malformed second entry aborts with `FailedDeserialize`, the third entry is
never attempted, and the first entry's written value is kept. -/
theorem applyAborts_noRollback_witness :
    applyCVars mgmtFix worldFix
      [("testrig.test_bool", .value (.boolV false)),
       ("testrig.test_int", .value (.strV "awawa")),
       ("testrig.test_int", .value (.intV 1))] =
      (⟨insertA worldFix.cells 3 ⟨.boolV false, 9, 9⟩, regFix, 9⟩,
        some (.FailedDeserialize "deserializer rejected the value")) :=
  applyAborts_noRollback mgmtFix worldFix
    [("testrig.test_bool", .value (.boolV false))]
    [("testrig.test_int", .value (.intV 1))] "testrig.test_int"
    (.strV "awawa") ⟨insertA worldFix.cells 3 ⟨.boolV false, 9, 9⟩, regFix, 9⟩
    (.FailedDeserialize "deserializer rejected the value") rfl rfl

/-! ### Scanner characterisation lemmas -/

theorem filterMap_const_none {α β : Type} (l : List α) :
    l.filterMap (fun _ => (none : Option β)) = [] := by
  induction l with
  | nil => rfl
  | cons a tl ih => simp [List.filterMap_cons, ih]

theorem filterMap_fst_sublist {α β γ : Type} (l : List α)
    (f : α → Option (β × γ)) (proj : α → β)
    (hf : ∀ a b, f a = some b → b.1 = proj a) :
    ((l.filterMap f).map Prod.fst).Sublist (l.map proj) := by
  induction l with
  | nil => simp
  | cons a tl ih =>
      cases hfa : f a with
      | none =>
          simp only [List.filterMap_cons, hfa, List.map_cons]
          exact ih.cons _
      | some b =>
          simp only [List.filterMap_cons, hfa, List.map_cons]
          rw [hf a b hfa]
          exact ih.cons₂ _

theorem leavesOfList_path_ne_nil (ds : List (String × CVarTreeNode)) :
    ∀ e ∈ leavesOfList ds, e.1 ≠ [] := by
  induction ds with
  | nil => intro e he; simp [leavesOfList] at he
  | cons hd tl ih =>
      obtain ⟨k, node⟩ := hd
      cases node with
      | Leaf n r =>
          intro e he
          simp only [leavesOfList] at he
          rcases List.mem_cons.mp he with rfl | h₂
          · simp
          · exact ih e h₂
      | Branch d =>
          intro e he
          simp only [leavesOfList, List.mem_append, List.mem_map] at he
          rcases he with ⟨e₀, -, rfl⟩ | h₂
          · simp
          · exact ih e h₂

theorem docResolve_cons (item : TomlTable) (key : String) (p : List String)
    (hp : p ≠ []) :
    docResolve item (key :: p) =
      match (tableGet item key).bind TomlItem.asTable with
      | some t₂ => docResolve t₂ p
      | none => none := by
  cases p with
  | nil => cases hp rfl
  | cons a l =>
      cases ht : tableGet item key with
      | none => simp [docResolve, ht]
      | some w =>
          cases w with
          | table t₂ => simp [docResolve, ht, TomlItem.asTable]
          | value u => simp [docResolve, ht, TomlItem.asTable]
          | noneItem => simp [docResolve, ht, TomlItem.asTable]
          | arrayOfTables => simp [docResolve, ht, TomlItem.asTable]

theorem traverseList_eq_filterMap (uc : Bool) (mgmt : CVarManagement) :
    ∀ (n : Nat) (ds : List (String × CVarTreeNode)) (item : TomlTable),
    sizeOf ds ≤ n →
    traverseList uc mgmt item ds =
      (leavesOfList ds).filterMap (fun e => scanSelect uc mgmt item e) := by
  intro n
  induction n with
  | zero =>
      intro ds item h
      exfalso
      cases ds with
      | nil => simp only [List.nil.sizeOf_spec] at h; omega
      | cons hd tl => simp only [List.cons.sizeOf_spec] at h; omega
  | succ n ihn =>
      intro ds item h
      cases ds with
      | nil =>
          rw [traverseList.eq_def]
          simp [leavesOfList]
      | cons hd rest =>
          obtain ⟨key, node⟩ := hd
          have hrest : sizeOf rest ≤ n := by
            simp only [List.cons.sizeOf_spec, Prod.mk.sizeOf_spec] at h
            omega
          have ihrest := ihn rest item hrest
          rw [traverseList.eq_def]
          cases node with
          | Leaf name reg =>
              cases ht : tableGet item key with
              | none =>
                  simp [ht, leavesOfList, List.filterMap_cons, scanSelect,
                    docResolve, ihrest]
              | some v =>
                  have hhead : docResolve item [key] = some v := by
                    simp [docResolve, ht]
                  simp only [ht, leavesOfList, List.filterMap_cons, scanSelect,
                    hhead, ihrest]
                  cases hpol : CVarFlags.contains (flagsOf mgmt reg)
                      CVarFlags.SAVED || !uc with
                  | true => simp
                  | false => simp
          | Branch ds₂ =>
              have hds₂ : sizeOf ds₂ ≤ n := by
                simp only [List.cons.sizeOf_spec, Prod.mk.sizeOf_spec,
                  CVarTreeNode.Branch.sizeOf_spec] at h
                omega
              have hpaths := leavesOfList_path_ne_nil ds₂
              cases ht : tableGet item key with
              | none =>
                  have hmap :
                      ((leavesOfList ds₂).map
                        (fun e => (key :: e.1, e.2.1, e.2.2))).filterMap
                        (fun e => scanSelect uc mgmt item e) = [] := by
                    rw [List.filterMap_map]
                    refine (List.filterMap_congr ?_).trans
                      (filterMap_const_none _)
                    intro e he
                    simp [Function.comp, scanSelect,
                      docResolve_cons item key e.1 (hpaths e he), ht]
                  simp [ht, leavesOfList, List.filterMap_append, hmap, ihrest]
              | some v =>
                  cases v with
                  | table t₂ =>
                      have hmap :
                          ((leavesOfList ds₂).map
                            (fun e => (key :: e.1, e.2.1, e.2.2))).filterMap
                            (fun e => scanSelect uc mgmt item e) =
                          (leavesOfList ds₂).filterMap
                            (fun e => scanSelect uc mgmt t₂ e) := by
                        rw [List.filterMap_map]
                        refine List.filterMap_congr ?_
                        intro e he
                        simp [Function.comp, scanSelect,
                          docResolve_cons item key e.1 (hpaths e he), ht,
                          TomlItem.asTable]
                      have hsub := ihn ds₂ t₂ hds₂
                      simp [ht, TomlItem.asTable, leavesOfList,
                        List.filterMap_append, hmap, hsub, ihrest]
                  | value u =>
                      have hmap :
                          ((leavesOfList ds₂).map
                            (fun e => (key :: e.1, e.2.1, e.2.2))).filterMap
                            (fun e => scanSelect uc mgmt item e) = [] := by
                        rw [List.filterMap_map]
                        refine (List.filterMap_congr ?_).trans
                          (filterMap_const_none _)
                        intro e he
                        simp [Function.comp, scanSelect,
                          docResolve_cons item key e.1 (hpaths e he), ht,
                          TomlItem.asTable]
                      simp [ht, TomlItem.asTable, leavesOfList,
                        List.filterMap_append, hmap, ihrest]
                  | noneItem =>
                      have hmap :
                          ((leavesOfList ds₂).map
                            (fun e => (key :: e.1, e.2.1, e.2.2))).filterMap
                            (fun e => scanSelect uc mgmt item e) = [] := by
                        rw [List.filterMap_map]
                        refine (List.filterMap_congr ?_).trans
                          (filterMap_const_none _)
                        intro e he
                        simp [Function.comp, scanSelect,
                          docResolve_cons item key e.1 (hpaths e he), ht,
                          TomlItem.asTable]
                      simp [ht, TomlItem.asTable, leavesOfList,
                        List.filterMap_append, hmap, ihrest]
                  | arrayOfTables =>
                      have hmap :
                          ((leavesOfList ds₂).map
                            (fun e => (key :: e.1, e.2.1, e.2.2))).filterMap
                            (fun e => scanSelect uc mgmt item e) = [] := by
                        rw [List.filterMap_map]
                        refine (List.filterMap_congr ?_).trans
                          (filterMap_const_none _)
                        intro e he
                        simp [Function.comp, scanSelect,
                          docResolve_cons item key e.1 (hpaths e he), ht,
                          TomlItem.asTable]
                      simp [ht, TomlItem.asTable, leavesOfList,
                        List.filterMap_append, hmap, ihrest]

theorem findCVars_eq (uc : Bool) (mgmt : CVarManagement) (doc : TomlTable) :
    findCVars uc mgmt doc =
      (leavesOf mgmt.tree).filterMap (fun e => scanSelect uc mgmt doc e) := by
  unfold findCVars leavesOf
  cases mgmt.tree with
  | Leaf n r => simp [scanSelect, docResolve]
  | Branch d =>
      exact traverseList_eq_filterMap uc mgmt (sizeOf d) d doc (Nat.le_refl _)

theorem scanSelect_some (uc : Bool) (mgmt : CVarManagement) (doc : TomlTable)
    (e : List String × String × Nat) (b : String × TomlItem)
    (h : scanSelect uc mgmt doc e = some b) :
    docResolve doc e.1 = some b.2 ∧ b.1 = e.2.1 ∧
      (CVarFlags.contains (flagsOf mgmt e.2.2) CVarFlags.SAVED || !uc) = true := by
  unfold scanSelect at h
  split at h
  next v hv =>
      split at h
      next hpol =>
          obtain rfl := Option.some.inj h
          exact ⟨hv, rfl, hpol⟩
      next hpol => exact Option.noConfusion h
  next => exact Option.noConfusion h

theorem findCVars_names_nodup (uc : Bool) (mgmt : CVarManagement)
    (doc : TomlTable)
    (hnames : ((leavesOf mgmt.tree).map (fun e => e.2.1)).Nodup) :
    ((findCVars uc mgmt doc).map Prod.fst).Nodup := by
  rw [findCVars_eq]
  refine List.Nodup.sublist ?_ hnames
  refine filterMap_fst_sublist _ _ _ ?_
  intro e b hb
  exact (scanSelect_some uc mgmt doc e b hb).2.1

theorem applyCVars_append_none_inv (mgmt : CVarManagement)
    (l₁ l₂ : List (String × TomlItem)) : ∀ world w₂,
    applyCVars mgmt world (l₁ ++ l₂) = (w₂, none) →
    ∃ w₁, applyCVars mgmt world l₁ = (w₁, none) ∧
      applyCVars mgmt w₁ l₂ = (w₂, none) := by
  induction l₁ with
  | nil => intro world w₂ h; exact ⟨world, rfl, h⟩
  | cons hd tl ih =>
      intro world w₂ h
      obtain ⟨c, item⟩ := hd
      cases item with
      | value v =>
          simp only [List.cons_append, applyCVars] at h ⊢
          cases hset : setCVarDeserialize mgmt world c v .silent with
          | error e => rw [hset] at h; simp at h
          | ok w₃ =>
              rw [hset] at h
              exact ih w₃ w₂ h
      | table t =>
          obtain ⟨w₁, h₁, h₂⟩ := ih world w₂ (by simpa [applyCVars] using h)
          exact ⟨w₁, by simpa [applyCVars] using h₁, h₂⟩
      | noneItem =>
          obtain ⟨w₁, h₁, h₂⟩ := ih world w₂ (by simpa [applyCVars] using h)
          exact ⟨w₁, by simpa [applyCVars] using h₁, h₂⟩
      | arrayOfTables =>
          obtain ⟨w₁, h₁, h₂⟩ := ih world w₂ (by simpa [applyCVars] using h)
          exact ⟨w₁, by simpa [applyCVars] using h₁, h₂⟩

theorem applyCVars_registry (mgmt : CVarManagement) :
    ∀ (l : List (String × TomlItem)) world w₂ r,
    applyCVars mgmt world l = (w₂, r) →
    w₂.typeRegistry = world.typeRegistry ∧ w₂.tick = world.tick := by
  intro l
  induction l with
  | nil =>
      intro world w₂ r h
      simp only [applyCVars] at h
      obtain ⟨rfl, -⟩ := Prod.mk.injEq .. |>.mp h
      exact ⟨rfl, rfl⟩
  | cons hd tl ih =>
      intro world w₂ r h
      obtain ⟨c, item⟩ := hd
      cases item with
      | value v =>
          simp only [applyCVars] at h
          cases hset : setCVarDeserialize mgmt world c v .silent with
          | error e =>
              rw [hset] at h
              obtain ⟨rfl, -⟩ := Prod.mk.injEq .. |>.mp h
              exact ⟨rfl, rfl⟩
          | ok w₃ =>
              rw [hset] at h
              obtain ⟨hr, ht⟩ :=
                setCVarDeserialize_registry_tick mgmt world c v .silent w₃ hset
              obtain ⟨hr₂, ht₂⟩ := ih w₃ w₂ r h
              exact ⟨hr₂.trans hr, ht₂.trans ht⟩
      | table t => exact ih world w₂ r (by simpa [applyCVars] using h)
      | noneItem => exact ih world w₂ r (by simpa [applyCVars] using h)
      | arrayOfTables => exact ih world w₂ r (by simpa [applyCVars] using h)

theorem deserializeForPath_registry_congr (mgmt : CVarManagement)
    (w w₂ : WorldState) (h : w₂.typeRegistry = w.typeRegistry)
    (cvar : String) (raw : CVal) :
    deserializeForPath mgmt w₂ cvar raw = deserializeForPath mgmt w cvar raw := by
  simp only [deserializeForPath, h]

/-! ### C4 — the scanner's user-config policy -/

/-- C4: for a registered leaf path present in the document — under the
registration invariants that every leaf's stored name resolves through the
trie to its own id and that leaf names and ids are duplicate-free — if the
entry's flags lack `SAVED` and the document is marked `user_config = true`,
the entry is not staged and its live cell is left unchanged by applying the
scan result; if the document is marked `user_config = false`, the same entry
is staged, and a successful apply leaves its cell holding the deserialized
fragment. -/
theorem scannerUserConfigPolicy (mgmt : CVarManagement) (doc : TomlTable)
    (segs : List String) (name : String) (reg : Nat) (v : TomlItem)
    (hmem : (segs, name, reg) ∈ leavesOf mgmt.tree)
    (hres : ∀ e ∈ leavesOf mgmt.tree, mgmt.tree.get e.2.1 = some e.2.2)
    (hnames : ((leavesOf mgmt.tree).map (fun e => e.2.1)).Nodup)
    (hregs : ((leavesOf mgmt.tree).map (fun e => e.2.2)).Nodup)
    (hdoc : docResolve doc segs = some v)
    (hflags : CVarFlags.contains (flagsOf mgmt reg) CVarFlags.SAVED = false) :
    (∀ x, (name, x) ∉ findCVars true mgmt doc) ∧
    (∀ world w₂ r, applyCVars mgmt world (findCVars true mgmt doc) = (w₂, r) →
      lookupA w₂.cells reg = lookupA world.cells reg) ∧
    ((name, v) ∈ findCVars false mgmt doc) ∧
    (∀ tv world w₂, v = TomlItem.value tv →
      applyCVars mgmt world (findCVars false mgmt doc) = (w₂, none) →
      ∃ patch, deserializeForPath mgmt world name tv = some patch ∧
        ∃ cell, lookupA w₂.cells reg = some cell ∧ cell.value = patch) := by
  have hinjName : ∀ e ∈ leavesOf mgmt.tree, e.2.1 = name →
      e = (segs, name, reg) := by
    intro e he hn
    exact List.inj_on_of_nodup_map hnames he hmem hn
  have hinjReg : ∀ e ∈ leavesOf mgmt.tree, e.2.2 = reg →
      e = (segs, name, reg) := by
    intro e he hn
    exact List.inj_on_of_nodup_map hregs he hmem hn
  have hstagedReg : ∀ uc n₂ x, (n₂, x) ∈ findCVars uc mgmt doc →
      mgmt.tree.get n₂ = some reg → n₂ = name := by
    intro uc n₂ x hm hg
    rw [findCVars_eq] at hm
    obtain ⟨e, he, hsel⟩ := List.mem_filterMap.mp hm
    obtain ⟨-, hb, -⟩ := scanSelect_some uc mgmt doc e (n₂, x) hsel
    have hb₂ : n₂ = e.2.1 := hb
    have hereg : e.2.2 = reg := by
      have h₂ := hres e he
      rw [← hb₂, hg] at h₂
      exact (Option.some.inj h₂).symm
    have he₃ := hinjReg e he hereg
    rw [hb₂, he₃]
  refine ⟨?_, ?_, ?_, ?_⟩
  · intro x hx
    rw [findCVars_eq] at hx
    obtain ⟨e, he, hsel⟩ := List.mem_filterMap.mp hx
    obtain ⟨-, hb, hpol⟩ := scanSelect_some true mgmt doc e (name, x) hsel
    have he₂ : e = (segs, name, reg) := hinjName e he hb.symm
    rw [he₂] at hpol
    simp only [Bool.not_true, Bool.or_false] at hpol
    rw [hflags] at hpol
    exact Bool.noConfusion hpol
  · intro world w₂ r happly
    refine applyCVars_frame mgmt (findCVars true mgmt doc) world w₂ r reg
      happly ?_
    intro n₂ v₂ hm hg
    have hn₂ : n₂ = name := hstagedReg true n₂ (TomlItem.value v₂) hm hg
    subst hn₂
    -- the entry would then be our non-SAVED leaf, but user-config staging
    -- requires SAVED
    rw [findCVars_eq] at hm
    obtain ⟨e, he, hsel⟩ := List.mem_filterMap.mp hm
    obtain ⟨-, hb, hpol⟩ := scanSelect_some true mgmt doc e
      (n₂, TomlItem.value v₂) hsel
    have he₂ : e = (segs, n₂, reg) := hinjName e he hb.symm
    rw [he₂] at hpol
    simp only [Bool.not_true, Bool.or_false] at hpol
    rw [hflags] at hpol
    exact Bool.noConfusion hpol
  · rw [findCVars_eq]
    refine List.mem_filterMap.mpr ⟨(segs, name, reg), hmem, ?_⟩
    simp [scanSelect, hdoc]
  · intro tv world w₂ hv happly
    subst hv
    have h₃ : (name, TomlItem.value tv) ∈ findCVars false mgmt doc := by
      rw [findCVars_eq]
      refine List.mem_filterMap.mpr ⟨(segs, name, reg), hmem, ?_⟩
      simp [scanSelect, hdoc]
    obtain ⟨l₁, l₂, hsplit⟩ := List.append_of_mem h₃
    have hnodup := findCVars_names_nodup false mgmt doc hnames
    rw [hsplit] at happly hnodup
    have hname_notin : name ∉ l₂.map Prod.fst := by
      rw [List.map_append, List.map_cons] at hnodup
      exact (List.nodup_cons.mp (List.nodup_append.mp hnodup).2.1).1
    obtain ⟨w₁, h₁, h₂⟩ := applyCVars_append_none_inv mgmt l₁ _ world w₂ happly
    simp only [applyCVars] at h₂
    cases hset : setCVarDeserialize mgmt w₁ name tv .silent with
    | error e =>
        rw [hset] at h₂
        simp at h₂
    | ok w₄ =>
        rw [hset] at h₂
        obtain ⟨cid, tyReg, d, patch, cell, newVal, hg, hty, hd, hp, hc, hn, hw⟩ :=
          setCVarDeserialize_ok_inv mgmt w₁ name tv .silent w₄ hset
        have hgr : mgmt.tree.get name = some reg := hres (segs, name, reg) hmem
        have hcid : cid = reg := by
          rw [hgr] at hg
          exact (Option.some.inj hg).symm
        subst hcid
        have hdes₁ : deserializeForPath mgmt w₁ name tv = some patch := by
          simp [deserializeForPath, hgr, hty, hd, hp]
        obtain ⟨hreg₁, -⟩ := applyCVars_registry mgmt l₁ world w₁ none h₁
        have hdes₀ : deserializeForPath mgmt world name tv = some patch := by
          rw [← deserializeForPath_registry_congr mgmt world w₁ hreg₁ name tv]
          exact hdes₁
        have hfr : ∀ n₂ v₂, (n₂, TomlItem.value v₂) ∈ l₂ →
            mgmt.tree.get n₂ ≠ some cid := by
          intro n₂ v₂ hm₂ hgn
          have hmem₂ : (n₂, TomlItem.value v₂) ∈ findCVars false mgmt doc := by
            rw [hsplit]
            exact List.mem_append.mpr (Or.inr (List.mem_cons_of_mem _ hm₂))
          have hn₂ : n₂ = name :=
            hstagedReg false n₂ (TomlItem.value v₂) hmem₂ hgn
          subst hn₂
          exact hname_notin
            (List.mem_map.mpr ⟨(n₂, TomlItem.value v₂), hm₂, rfl⟩)
        have hval := applyCVars_frame mgmt l₂ w₄ w₂ none cid h₂ hfr
        subst hw
        refine ⟨patch, hdes₀,
          modeCell .silent newVal cell.added w₁.tick, ?_, ?_⟩
        · rw [hval]
          exact lookupA_insertA_self w₁.cells cid _
        · have hnv : newVal = patch := tryApply_eq cell.value patch newVal hn
          simp [modeCell, hnv]

/-- Witness for C4 on the fixture: the `LOCAL` cvar `testrig.test_bool`,
present in the fixture document, is skipped when the document is a user
config and staged when it is not. -/
theorem scannerUserConfigPolicy_witness :
    (∀ x, ("testrig.test_bool", x) ∉ findCVars true mgmtFix docFix) ∧
    ("testrig.test_bool", TomlItem.value (.boolV false)) ∈
      findCVars false mgmtFix docFix := by
  have h := scannerUserConfigPolicy mgmtFix docFix ["testrig", "test_bool"]
    "testrig.test_bool" 3 (TomlItem.value (.boolV false))
    (by simp [mgmtFix, treeFix, leavesOf, leavesOfList])
    (by simp only [mgmtFix, treeFix, leavesOf, leavesOfList]; decide)
    (by simp only [mgmtFix, treeFix, leavesOf, leavesOfList, List.map_cons,
      List.map_nil]; decide)
    (by simp only [mgmtFix, treeFix, leavesOf, leavesOfList, List.map_cons,
      List.map_nil]; decide) rfl rfl
  exact ⟨h.1, h.2.2.1⟩

/-- Witness for C5 on the fixture trie: the registered path resolves to its
handle, and a walk ending on a `Branch` yields `none`. -/
theorem cvarTreeGet_characterisation_witness :
    LeafAt treeFix ["testrig", "test_int"] 7 ∧
    getGo treeFix ["testrig"] = none := by
  constructor
  · exact ((cvarTreeGet_characterisation treeFix ["testrig", "test_int"]).1 7).mp rfl
  · exact (cvarTreeGet_characterisation treeFix ["testrig"]).2.2.2.1 []
      "testrig"
      [("testrig", .Branch
        [("test_bool", .Leaf "testrig.test_bool" 3),
         ("test_int", .Leaf "testrig.test_int" 7)])]
      [("test_bool", .Leaf "testrig.test_bool" 3),
       ("test_int", .Leaf "testrig.test_int" 7)]
      rfl rfl rfl

/-! ### Save-back lemmas -/

theorem tableGetEntry_setEntry_ne (t : TomlTable) (k k₂ : String)
    (v : TomlItem) (h : k₂ ≠ k) :
    tableGetEntry (setEntry t k v) k₂ = tableGetEntry t k₂ := by
  induction t with
  | nil =>
      have hne : ¬ k = k₂ := fun hh => h hh.symm
      simp [setEntry, tableGetEntry, hne]
  | cons hd tl ih =>
      obtain ⟨k₀, d₀, v₀⟩ := hd
      by_cases hk : k₀ = k
      · subst hk
        have hne : ¬ k₀ = k₂ := fun hh => h hh.symm
        simp [setEntry, tableGetEntry, hne]
      · simp only [setEntry, hk, if_false, tableGetEntry]
        by_cases hk₂ : k₀ = k₂ <;> simp [hk₂, ih]

theorem tableGet_setEntry_self (t : TomlTable) (k : String) (v : TomlItem) :
    tableGet (setEntry t k v) k = some v := by
  induction t with
  | nil => simp [setEntry, tableGet, tableGetEntry]
  | cons hd tl ih =>
      obtain ⟨k₀, d₀, v₀⟩ := hd
      by_cases hk : k₀ = k
      · subst hk
        simp [setEntry, tableGet, tableGetEntry]
      · simpa [setEntry, tableGet, tableGetEntry, hk] using ih

theorem tableGetEntry_setEntry_none (t : TomlTable) (k : String) (v : TomlItem)
    (h : tableGetEntry t k = none) :
    tableGetEntry (setEntry t k v) k = some ("", v) := by
  induction t with
  | nil => simp [setEntry, tableGetEntry]
  | cons hd tl ih =>
      obtain ⟨k₀, d₀, v₀⟩ := hd
      by_cases hk : k₀ = k
      · subst hk
        simp [tableGetEntry] at h
      · simp only [tableGetEntry, hk, if_false] at h
        simp [setEntry, tableGetEntry, hk, ih h]

theorem tableGetEntry_setEntry_some (t : TomlTable) (k : String)
    (d₁ : String) (v₁ v : TomlItem) (h : tableGetEntry t k = some (d₁, v₁)) :
    tableGetEntry (setEntry t k v) k = some (d₁, v) := by
  induction t with
  | nil => simp [tableGetEntry] at h
  | cons hd tl ih =>
      obtain ⟨k₀, d₀, v₀⟩ := hd
      by_cases hk : k₀ = k
      · subst hk
        simp [tableGetEntry] at h
        obtain ⟨rfl, -⟩ := h
        simp [setEntry, tableGetEntry]
      · simp only [tableGetEntry, hk, if_false] at h
        simp [setEntry, tableGetEntry, hk, ih h]

theorem resolveEntry_nil_table (q : List String) :
    resolveEntry ([] : TomlTable) q = none := by
  cases q with
  | nil => rfl
  | cons a l =>
      cases l with
      | nil => rfl
      | cons b l₂ => rfl

theorem insertAtPath_frame : ∀ (segs : List String) (doc doc₂ : TomlTable)
    (v : TomlItem) (q : List String),
    insertAtPath doc segs v = .ok doc₂ →
    ¬ (segs <+: q) → ¬ (q <+: segs) →
    resolveEntry doc₂ q = resolveEntry doc q := by
  intro segs
  induction segs with
  | nil =>
      intro doc doc₂ v q h _ _
      simp only [insertAtPath] at h
      rw [← Except.ok.inj h]
  | cons k rest ih =>
      intro doc doc₂ v q h hq₁ hq₂
      cases rest with
      | nil =>
          simp only [insertAtPath] at h
          have hdoc₂ : doc₂ = setEntry doc k v := (Except.ok.inj h).symm
          subst hdoc₂
          cases q with
          | nil => simp [resolveEntry]
          | cons k₃ q₂ =>
              have hk₃ : k₃ ≠ k := by
                rintro rfl
                cases q₂ with
                | nil => exact hq₂ (by simp)
                | cons b l₂ => exact hq₁ (by simp)
              cases q₂ with
              | nil => simp [resolveEntry, tableGetEntry_setEntry_ne doc k k₃ v hk₃]
              | cons b l₂ =>
                  simp [resolveEntry, tableGet,
                    tableGetEntry_setEntry_ne doc k k₃ v hk₃]
      | cons k₂ rest₂ =>
          cases q with
          | nil =>
              cases hentry : tableGetEntry doc k with
              | none =>
                  simp only [insertAtPath, hentry] at h
                  cases hins : insertAtPath [] (k₂ :: rest₂) v with
                  | error e => rw [hins] at h; exact Except.noConfusion h
                  | ok sub =>
                      rw [hins] at h
                      have hdoc₂ : doc₂ = setEntry doc k (.table sub) :=
                        (Except.ok.inj h).symm
                      subst hdoc₂
                      simp [resolveEntry]
              | some p =>
                  obtain ⟨d₀, w₀⟩ := p
                  cases w₀ with
                  | table sub =>
                      simp only [insertAtPath, hentry] at h
                      cases hins : insertAtPath sub (k₂ :: rest₂) v with
                      | error e => rw [hins] at h; exact Except.noConfusion h
                      | ok sub₂ =>
                          rw [hins] at h
                          have hdoc₂ : doc₂ = setEntry doc k (.table sub₂) :=
                            (Except.ok.inj h).symm
                          subst hdoc₂
                          simp [resolveEntry]
                  | value u => simp [insertAtPath, hentry] at h
                  | noneItem => simp [insertAtPath, hentry] at h
                  | arrayOfTables => simp [insertAtPath, hentry] at h
          | cons k₃ q₂ =>
              by_cases hk₃ : k₃ = k
              · subst hk₃
                have htails : ¬ ((k₂ :: rest₂) <+: q₂) ∧ ¬ (q₂ <+: (k₂ :: rest₂)) := by
                  constructor
                  · intro hpre
                    exact hq₁ (List.cons_prefix_cons.mpr ⟨rfl, hpre⟩)
                  · intro hpre
                    exact hq₂ (List.cons_prefix_cons.mpr ⟨rfl, hpre⟩)
                cases hentry : tableGetEntry doc k₃ with
                | none =>
                    simp only [insertAtPath, hentry] at h
                    cases hins : insertAtPath [] (k₂ :: rest₂) v with
                    | error e => rw [hins] at h; exact Except.noConfusion h
                    | ok sub =>
                        rw [hins] at h
                        have hdoc₂ : doc₂ = setEntry doc k₃ (.table sub) :=
                          (Except.ok.inj h).symm
                        subst hdoc₂
                        have hframe := ih [] sub v q₂ hins htails.1 htails.2
                        rw [resolveEntry_nil_table q₂] at hframe
                        cases q₂ with
                        | nil => exact absurd List.nil_prefix htails.2
                        | cons b l₂ =>
                            have hresolved : resolveEntry sub (b :: l₂) = none := by
                              simpa using hframe
                            simp [resolveEntry, tableGet,
                              tableGetEntry_setEntry_none doc k₃ _ hentry,
                              hentry, hresolved]
                | some p =>
                    obtain ⟨d₀, w₀⟩ := p
                    cases w₀ with
                    | table sub =>
                        simp only [insertAtPath, hentry] at h
                        cases hins : insertAtPath sub (k₂ :: rest₂) v with
                        | error e => rw [hins] at h; exact Except.noConfusion h
                        | ok sub₂ =>
                            rw [hins] at h
                            have hdoc₂ : doc₂ = setEntry doc k₃ (.table sub₂) :=
                              (Except.ok.inj h).symm
                            subst hdoc₂
                            have hframe := ih sub sub₂ v q₂ hins htails.1 htails.2
                            cases q₂ with
                            | nil => exact absurd List.nil_prefix htails.2
                            | cons b l₂ =>
                                simp [resolveEntry, tableGet,
                                  tableGetEntry_setEntry_some doc k₃ d₀ _ _ hentry,
                                  hentry]
                                simpa using hframe
                    | value u => simp [insertAtPath, hentry] at h
                    | noneItem => simp [insertAtPath, hentry] at h
                    | arrayOfTables => simp [insertAtPath, hentry] at h
              · have hdoc₂ : ∃ item₂, doc₂ = setEntry doc k item₂ := by
                  cases hentry : tableGetEntry doc k with
                  | none =>
                      simp only [insertAtPath, hentry] at h
                      cases hins : insertAtPath [] (k₂ :: rest₂) v with
                      | error e => rw [hins] at h; exact Except.noConfusion h
                      | ok sub =>
                          rw [hins] at h
                          exact ⟨.table sub, (Except.ok.inj h).symm⟩
                  | some p =>
                      obtain ⟨d₀, w₀⟩ := p
                      cases w₀ with
                      | table sub =>
                          simp only [insertAtPath, hentry] at h
                          cases hins : insertAtPath sub (k₂ :: rest₂) v with
                          | error e => rw [hins] at h; exact Except.noConfusion h
                          | ok sub₂ =>
                              rw [hins] at h
                              exact ⟨.table sub₂, (Except.ok.inj h).symm⟩
                      | value u => simp [insertAtPath, hentry] at h
                      | noneItem => simp [insertAtPath, hentry] at h
                      | arrayOfTables => simp [insertAtPath, hentry] at h
                obtain ⟨item₂, hdoc₂⟩ := hdoc₂
                subst hdoc₂
                cases q₂ with
                | nil => simp [resolveEntry, tableGetEntry_setEntry_ne doc k k₃ _ hk₃]
                | cons b l₂ =>
                    simp [resolveEntry, tableGet,
                      tableGetEntry_setEntry_ne doc k k₃ _ hk₃]

theorem insertAtPath_resolve : ∀ (segs : List String) (doc doc₂ : TomlTable)
    (v : TomlItem), segs ≠ [] → insertAtPath doc segs v = .ok doc₂ →
    docResolve doc₂ segs = some v := by
  intro segs
  induction segs with
  | nil => intro doc doc₂ v h; cases h rfl
  | cons k rest ih =>
      intro doc doc₂ v _ h
      cases rest with
      | nil =>
          simp only [insertAtPath] at h
          have hdoc₂ : doc₂ = setEntry doc k v := (Except.ok.inj h).symm
          subst hdoc₂
          simp [docResolve, tableGet_setEntry_self]
      | cons k₂ rest₂ =>
          cases hentry : tableGetEntry doc k with
          | none =>
              simp only [insertAtPath, hentry] at h
              cases hins : insertAtPath [] (k₂ :: rest₂) v with
              | error e => rw [hins] at h; exact Except.noConfusion h
              | ok sub =>
                  rw [hins] at h
                  have hdoc₂ : doc₂ = setEntry doc k (.table sub) :=
                    (Except.ok.inj h).symm
                  subst hdoc₂
                  simp [docResolve, tableGet,
                    tableGetEntry_setEntry_none doc k _ hentry,
                    ih [] sub v (by simp) hins]
          | some p =>
              obtain ⟨d₀, w₀⟩ := p
              cases w₀ with
              | table sub =>
                  simp only [insertAtPath, hentry] at h
                  cases hins : insertAtPath sub (k₂ :: rest₂) v with
                  | error e => rw [hins] at h; exact Except.noConfusion h
                  | ok sub₂ =>
                      rw [hins] at h
                      have hdoc₂ : doc₂ = setEntry doc k (.table sub₂) :=
                        (Except.ok.inj h).symm
                      subst hdoc₂
                      simp [docResolve, tableGet,
                        tableGetEntry_setEntry_some doc k d₀ _ _ hentry,
                        ih sub sub₂ v (by simp) hins]
              | value u => simp [insertAtPath, hentry] at h
              | noneItem => simp [insertAtPath, hentry] at h
              | arrayOfTables => simp [insertAtPath, hentry] at h

theorem saveWorldGo_eq_writeSelected (mgmt : CVarManagement)
    (world : WorldState) :
    ∀ (entries : List (Nat × ReflectCVarData)) (doc : TomlTable),
    (∀ p ∈ entries, CVarFlags.contains p.2.flags CVarFlags.SAVED = true →
      (((lookupA world.typeRegistry p.2.innerType).bind
          (fun e => e.ser)).isSome = true ∧
       ((mgmt.tree.get p.2.path).bind (lookupA world.cells)).isSome = true)) →
    saveWorldGo mgmt world doc entries =
      writeSelected mgmt world doc (entries.filter (shouldSave mgmt world)) := by
  intro entries
  induction entries with
  | nil => intro doc _; rfl
  | cons hd rest ih =>
      intro doc h
      obtain ⟨cid, cv⟩ := hd
      have hhd := h (cid, cv) (List.mem_cons_self ..)
      have htl := fun p hp => h p (List.mem_cons_of_mem _ hp)
      cases hsaved : CVarFlags.contains cv.flags CVarFlags.SAVED with
      | false =>
          have hfilt : shouldSave mgmt world (cid, cv) = false := by
            simp [shouldSave, hsaved]
          simp [saveWorldGo, hsaved, List.filter_cons, hfilt, ih doc htl]
      | true =>
          obtain ⟨hser, hcell⟩ := hhd hsaved
          obtain ⟨ser₀, hser₀⟩ := Option.isSome_iff_exists.mp hser
          obtain ⟨cell₀, hcell₀⟩ := Option.isSome_iff_exists.mp hcell
          obtain ⟨cid₂, hg, hc⟩ : ∃ cid₂, mgmt.tree.get cv.path = some cid₂ ∧
              lookupA world.cells cid₂ = some cell₀ := by
            cases hgg : mgmt.tree.get cv.path with
            | none => rw [hgg] at hcell₀; simp at hcell₀
            | some cid₃ =>
                rw [hgg] at hcell₀
                exact ⟨cid₃, rfl, by simpa using hcell₀⟩
          cases hdef : cell₀.isDefault with
          | true =>
              have hfilt : shouldSave mgmt world (cid, cv) = false := by
                simp [shouldSave, hsaved, hg, hc, hdef]
              simp [saveWorldGo, hsaved, hser₀, hg, hc, hdef, List.filter_cons,
                hfilt, ih doc htl]
          | false =>
              have hfilt : shouldSave mgmt world (cid, cv) = true := by
                simp [shouldSave, hsaved, hser₀, hg, hc, hdef]
              cases hins : insertAtPath doc (splitDots cv.path)
                  (.value (ser₀ cell₀.value)) with
              | error e =>
                  simp [saveWorldGo, writeSelected, hsaved, hser₀, hg, hc, hdef,
                    List.filter_cons, hfilt, hins]
              | ok doc₂ =>
                  simp [saveWorldGo, writeSelected, hsaved, hser₀, hg, hc, hdef,
                    List.filter_cons, hfilt, hins, ih doc₂ htl]

theorem saveWorldGo_frame (mgmt : CVarManagement) (world : WorldState) :
    ∀ (entries : List (Nat × ReflectCVarData)) (doc doc₂ : TomlTable)
    (q : List String),
    saveWorldGo mgmt world doc entries = .ok doc₂ →
    (∀ p ∈ entries, shouldSave mgmt world p = true →
      ¬ (splitDots p.2.path <+: q) ∧ ¬ (q <+: splitDots p.2.path)) →
    resolveEntry doc₂ q = resolveEntry doc q := by
  intro entries
  induction entries with
  | nil =>
      intro doc doc₂ q h _
      simp only [saveWorldGo] at h
      rw [← SaveOutcome.ok.inj h]
  | cons hd rest ih =>
      intro doc doc₂ q h hq
      obtain ⟨cid, cv⟩ := hd
      have htl := fun p hp => hq p (List.mem_cons_of_mem _ hp)
      simp only [saveWorldGo] at h
      cases hsaved : CVarFlags.contains cv.flags CVarFlags.SAVED with
      | false =>
          rw [hsaved] at h
          exact ih doc doc₂ q (by simpa using h) htl
      | true =>
          rw [hsaved] at h
          simp only [Bool.not_true, Bool.false_eq_true, if_false] at h
          cases hser₀ : (lookupA world.typeRegistry cv.innerType).bind
              (fun e => e.ser) with
          | none => simp [hser₀] at h
          | some ser₀ =>
              simp only [hser₀] at h
              cases hg : mgmt.tree.get cv.path with
              | none => simp [hg] at h
              | some cid₂ =>
                  simp only [hg] at h
                  cases hc : lookupA world.cells cid₂ with
                  | none => simp [hc] at h
                  | some cell₀ =>
                      simp only [hc] at h
                      cases hdef : cell₀.isDefault with
                      | true =>
                          simp only [hdef, if_true] at h
                          exact ih doc doc₂ q (by simpa using h) htl
                      | false =>
                          simp only [hdef, Bool.false_eq_true, if_false] at h
                          cases hins : insertAtPath doc (splitDots cv.path)
                              (.value (ser₀ cell₀.value)) with
                          | error e => simp [hins] at h
                          | ok doc₁ =>
                              simp only [hins] at h
                              have hsel : shouldSave mgmt world (cid, cv) = true := by
                                simp [shouldSave, hsaved, hser₀, hg, hc, hdef]
                              have hunrel := hq (cid, cv) (List.mem_cons_self ..) hsel
                              have hstep := insertAtPath_frame (splitDots cv.path)
                                doc doc₁ (.value (ser₀ cell₀.value)) q hins
                                hunrel.1 hunrel.2
                              exact (ih doc₁ doc₂ q h htl).trans hstep

/-! ### C2 — what `save_world` writes -/

/-- C2: under the registration invariant that every `SAVED` entry has a
serializer and a resolvable cell, `save_world` equals the write phase run on
exactly the entries satisfying `shouldSave` — `SAVED` set, serializer
present, cell not default — so an entry is written iff those three
conditions hold, entries that are default or lack `SAVED` are never written,
and a registry whose cells are all default saved into a blank context
produces the empty document. -/
theorem saveWorld_selection (mgmt : CVarManagement) (world : WorldState)
    (hwf : ∀ p ∈ mgmt.resources,
      CVarFlags.contains p.2.flags CVarFlags.SAVED = true →
      (((lookupA world.typeRegistry p.2.innerType).bind
          (fun e => e.ser)).isSome = true ∧
       ((mgmt.tree.get p.2.path).bind (lookupA world.cells)).isSome = true)) :
    (∀ doc, saveWorld mgmt world doc =
      writeSelected mgmt world doc
        (mgmt.resources.filter (shouldSave mgmt world))) ∧
    (∀ p ∈ mgmt.resources, shouldSave mgmt world p = true ↔
      (CVarFlags.contains p.2.flags CVarFlags.SAVED = true ∧
       ((lookupA world.typeRegistry p.2.innerType).bind
          (fun e => e.ser)).isSome = true ∧
       ∃ cid cell, mgmt.tree.get p.2.path = some cid ∧
         lookupA world.cells cid = some cell ∧ cell.isDefault = false)) ∧
    ((∀ p ∈ mgmt.resources,
        ((mgmt.tree.get p.2.path).bind (lookupA world.cells)).all
          Cell.isDefault = true) →
      saveWorld mgmt world [] = .ok []) := by
  refine ⟨?_, ?_, ?_⟩
  · intro doc
    exact saveWorldGo_eq_writeSelected mgmt world mgmt.resources doc hwf
  · intro p hp
    constructor
    · intro hs
      simp only [shouldSave, Bool.and_eq_true] at hs
      obtain ⟨⟨h₁, h₂⟩, h₃⟩ := hs
      refine ⟨h₁, h₂, ?_⟩
      cases hb : (mgmt.tree.get p.2.path).bind (lookupA world.cells) with
      | none => rw [hb] at h₃; simp at h₃
      | some cell =>
          rw [hb] at h₃
          cases hgg : mgmt.tree.get p.2.path with
          | none => rw [hgg] at hb; simp at hb
          | some cid =>
              rw [hgg] at hb
              simp only [Option.some_bind] at hb
              refine ⟨cid, cell, rfl, hb, ?_⟩
              simpa using h₃
    · rintro ⟨h₁, h₂, cid, cell, hg, hc, hdef⟩
      simp [shouldSave, h₁, h₂, hg, hc, hdef]
  · intro hdefall
    have hfilt : mgmt.resources.filter (shouldSave mgmt world) = [] := by
      rw [List.filter_eq_nil_iff]
      intro p hp
      have hd := hdefall p hp
      cases hb : (mgmt.tree.get p.2.path).bind (lookupA world.cells) with
      | none => simp [shouldSave, hb]
      | some cell =>
          rw [hb] at hd
          simp only [Option.all] at hd
          simp [shouldSave, hb, hd]
    have h₁ := saveWorldGo_eq_writeSelected mgmt world mgmt.resources [] hwf
    rw [hfilt] at h₁
    exact h₁

/-- Witness for C2: for the fixture world with one modified `SAVED` cvar, the
save equals the write phase over the selected entries; for the all-default
fixture world, saving into a blank context yields the empty document. -/
theorem saveWorld_selection_witness :
    saveWorld mgmtFix worldModFix [] =
      writeSelected mgmtFix worldModFix []
        (mgmtFix.resources.filter (shouldSave mgmtFix worldModFix)) ∧
    saveWorld mgmtFix worldFix [] = .ok [] := by
  constructor
  · exact (saveWorld_selection mgmtFix worldModFix (by decide)).1 []
  · exact (saveWorld_selection mgmtFix worldFix (by decide)).2.2 (by decide)

/-! ### C9 — saving preserves unrelated document content -/

/-- C9: a successful `save_world` into a caller-supplied document modifies
only the dotted key chains of the entries actually written: every key chain
unrelated to every written path (neither a prefix of it nor extended by it)
resolves to the identical entry afterwards — same item and same decor, the
opaque per-entry formatting `toml_edit` preserves — and each write is an
insert-or-update of the single final key, creating intermediate tables on
demand, that places the serialized value at the written path. -/
theorem saveWorld_frame_unrelated (mgmt : CVarManagement) (world : WorldState)
    (doc doc₂ : TomlTable) (q : List String)
    (hok : saveWorld mgmt world doc = SaveOutcome.ok doc₂)
    (hq : ∀ p ∈ mgmt.resources, shouldSave mgmt world p = true →
      ¬ (splitDots p.2.path <+: q) ∧ ¬ (q <+: splitDots p.2.path)) :
    resolveEntry doc₂ q = resolveEntry doc q ∧
    (∀ (d d₂ : TomlTable) (segs : List String) (v : TomlItem), segs ≠ [] →
      insertAtPath d segs v = .ok d₂ → docResolve d₂ segs = some v) :=
  ⟨saveWorldGo_frame mgmt world mgmt.resources doc doc₂ q hok hq,
    fun d d₂ segs v h hins => insertAtPath_resolve segs d d₂ v h hins⟩

/-- Witness for C9: saving the modified fixture world over the pre-populated
fixture document leaves the decorated unrelated key `other` and the
pre-existing `testrig.pre` entry untouched (decor included) while adding
`testrig.test_int`. -/
theorem saveWorld_frame_unrelated_witness :
    resolveEntry docPostFix ["other"] = resolveEntry docPreFix ["other"] ∧
    resolveEntry docPostFix ["testrig", "pre"] =
      resolveEntry docPreFix ["testrig", "pre"] := by
  constructor
  · exact (saveWorld_frame_unrelated mgmtFix worldModFix docPreFix docPostFix
      ["other"] rfl (by decide)).1
  · exact (saveWorld_frame_unrelated mgmtFix worldModFix docPreFix docPostFix
      ["testrig", "pre"] rfl (by decide)).1

end BevyConvars
